import Mathlib

/-!
# Seam carving (`carve.cpp`): a shallow embedding of the carving core

The embedding follows `src/src/carve.cpp`:

* `RGB`, `square`, `RGB.sub` (the source's `operator-` on pixels), `SeamValue`;
* `getVerticalSeam`, `getHorizontalSeam` with their `update` lambdas, the
  `std::min_element` scan and the backtracking loop;
* `removeVerticalSeam`, `removeHorizontalSeam`;
* the `SDL_WINDOWEVENT_RESIZED` handler of `main` as `resize`.

Conventions.

* `unsigned int` / `uint32_t` values are `Nat`, every arithmetic operation on
  them is followed by an explicit `% 2 ^ 32`.
* `int` variables are `Int` (or `Nat` for loop counters that start at a
  non-negative value and only count up or down to a non-negative bound).
* `std::vector` is `List`.  Every element access (`operator[]`, `.at`,
  dereferencing an iterator, a range handed to `std::copy`) is checked: the
  embedding returns `none` where the source would throw `std::out_of_range` or
  read or write out of bounds.
-/

namespace SeamCarving

/-! ## Data model -/

/-- The pixel of the source (`struct RGB`): four 8-bit channels. -/
structure RGB where
  alpha : Fin 256
  blue : Fin 256
  green : Fin 256
  red : Fin 256
  deriving DecidableEq, Repr

/-- Conversion of an `int` to `unsigned int` / `uint32_t`. -/
def toU32 (v : Int) : Nat := (v % 2 ^ 32).toNat

/-- Source: `unsigned int square(unsigned int val) { return val*val; }`. -/
def square (val : Nat) : Nat := (val * val) % 2 ^ 32

/-- Source: `operator-(RGB& a, RGB& b)`.  Each difference
`(unsigned int)a.c - b.c` is an `unsigned int` subtraction (the `uint8_t`
operand `b.c` is promoted to `int` and then converted), so it wraps modulo
`2 ^ 32` when `a.c < b.c`; the squares and their sum wrap likewise. -/
def RGB.sub (a b : RGB) : Nat :=
  ((square (toU32 ((a.red.val : Int) - (b.red.val : Int)))
      + square (toU32 ((a.green.val : Int) - (b.green.val : Int)))) % 2 ^ 32
    + square (toU32 ((a.blue.val : Int) - (b.blue.val : Int)))) % 2 ^ 32

/-- Source: `struct SeamValue { unsigned int cost; int prev; }`. -/
structure SeamValue where
  cost : Nat
  prev : Int
  deriving DecidableEq, Repr

/-- The arithmetic of the `unsigned int` cumulative costs.  `u32` is the
arithmetic of the source (sums wrap modulo `2 ^ 32`); `exact` reads the same
code over unbounded integers. -/
inductive Arith where
  | u32
  | exact
  deriving DecidableEq, Repr

/-- The sum `cost_prev.cost + delta` under the chosen cost arithmetic. -/
def Arith.add : Arith → Nat → Nat → Nat
  | Arith.u32, a, b => (a + b) % 2 ^ 32
  | Arith.exact, a, b => a + b

/-- The DP table `paths` of the source: one row of `SeamValue` per layer. -/
abbrev Paths := List (List SeamValue)

/-- The loop `for (int x = start; x < start + count; ++x) body(x)` over a
state that `body` may fail to produce. -/
def forLoop {σ : Type} (body : Nat → σ → Option σ) : Nat → Nat → σ → Option σ
  | _, 0, s => some s
  | start, count + 1, s => (body start s).bind (forLoop body (start + 1) count)

/-! ## `getVerticalSeam` -/

/-- One pass of the innermost loop body of `getVerticalSeam` (lines 91-105)
for row `h`, column `x` and offset `i`. -/
def getVerticalSeam_step (A : Arith) (pixels : List RGB) (width h x : Nat)
    (paths : Paths) (i : Int) : Option Paths := do
  let source : Int := (x : Int) + i
  let here : Nat := (h * width + x) % 2 ^ 32
  let row ← paths[h]?
  let cost_here ← row[x]?
  if 0 ≤ source ∧ source < (width : Int) then
    let prev : Nat := ((h - 1) * width + source.toNat) % 2 ^ 32
    let p_here ← pixels[here]?
    let p_prev ← pixels[prev]?
    let delta : Nat := p_here.sub p_prev
    let prow ← paths[h - 1]?
    let cost_prev ← prow[source.toNat]?
    if cost_here.prev = -1 ∨ A.add cost_prev.cost delta < cost_here.cost then
      pure (paths.set h (row.set x { cost := A.add cost_prev.cost delta, prev := source }))
    else
      pure paths
  else
    pure paths

/-- The lambda `update(start, stop)` of `getVerticalSeam` for row `h`. -/
def getVerticalSeam_update (A : Arith) (pixels : List RGB) (width h start stop : Nat)
    (paths : Paths) : Option Paths :=
  forLoop (fun x p => [-1, 0, 1].foldlM (getVerticalSeam_step A pixels width h x) p)
    start (stop - start) paths

/-- The table `paths` at the end of the row loop of `getVerticalSeam`
(lines 82-117).  The two halves of a row touch disjoint cells of row `h` and
read only row `h - 1`; they are run here one after the other, the
asynchronously launched right half first. -/
def getVerticalSeam_paths (A : Arith) (pixels : List RGB) (width height : Nat) :
    Option Paths :=
  forLoop
    (fun h paths =>
      (getVerticalSeam_update A pixels width h (width / 2) width paths).bind
        (getVerticalSeam_update A pixels width h 0 (width / 2)))
    1 (height - 1) (List.replicate height (List.replicate width { cost := 0, prev := -1 }))

/-- The scan of `std::min_element` with `operator<` on `SeamValue`: the
position `smallest` moves to `idx` only when `row[idx].cost` is strictly less. -/
def minElementFrom (row : List SeamValue) : Nat → Nat → Nat → Nat
  | _, 0, smallest => smallest
  | idx, count + 1, smallest =>
    match row[idx]?, row[smallest]? with
    | some a, some b =>
      if a.cost < b.cost then minElementFrom row (idx + 1) count idx
      else minElementFrom row (idx + 1) count smallest
    | _, _ => minElementFrom row (idx + 1) count smallest

/-- Source: `std::min_element(row.begin(), row.end())` as an index into `row`
(for an empty row this is `end()`, index `0`). -/
def minElement (row : List SeamValue) : Nat :=
  minElementFrom row 1 (row.length - 1) 0

/-- The backtracking loop `for (int h = height-1; h > 0; --h)` shared by both
seam finders; the first argument counts `h` down. -/
def backtrack (paths : Paths) : Nat → Int → List Nat → Option (List Nat)
  | 0, _, min_path => some min_path
  | h + 1, prev, min_path =>
    if h < min_path.length then
      if 0 ≤ prev then
        match paths[h]? with
        | some row =>
          match row[prev.toNat]? with
          | some v => backtrack paths h v.prev (min_path.set h (toU32 prev))
          | none => none
        | none => none
      else none
    else none

/-- Lines 118-129, shared verbatim by both seam finders: pick the minimum of
the last layer and follow the stored predecessors. `layers` is `height` for
the vertical and `width` for the horizontal seam. -/
def minPath (paths : Paths) (layers : Nat) : Option (List Nat) := do
  let last ← paths[(layers + 2 ^ 32 - 1) % 2 ^ 32]?
  let min := minElement last
  let minv ← last[min]?
  let min_path := List.replicate layers 0
  if min_path = [] then none
  else backtrack paths (layers - 1) minv.prev (min_path.set (min_path.length - 1) min)

/-- Source: `getVerticalSeam(pixels, width, height)`. -/
def getVerticalSeam (A : Arith) (pixels : List RGB) (width height : Nat) :
    Option (List Nat) :=
  (getVerticalSeam_paths A pixels width height).bind fun paths => minPath paths height

/-! ## `removeVerticalSeam` -/

/-- Source: `std::copy(first, last, d_first)` with iterators given as offsets
into `src` and `dst`.  Fails when the source range is not a range of `src` or
the destination range does not fit into `dst`. -/
def stdCopy (src : List RGB) (first last : Nat) (dst : List RGB) (d_first : Nat) :
    Option (List RGB) :=
  if first ≤ last ∧ last ≤ src.length ∧ d_first + (last - first) ≤ dst.length then
    some (dst.take d_first ++ ((src.drop first).take (last - first)
      ++ dst.drop (d_first + (last - first))))
  else none

/-- A value-initialised pixel, as in `std::vector<RGB> new_pixels(n)`. -/
def RGB.zero : RGB := { alpha := 0, blue := 0, green := 0, red := 0 }

/-- The loop body of `removeVerticalSeam` for row `h` (lines 136-139). -/
def removeVerticalSeam_row (seam : List Nat) (pixels : List RGB) (width h : Nat)
    (new_pixels : List RGB) : Option (List RGB) := do
  let s ← seam[h]?
  let begin : Nat := (h * width) % 2 ^ 32
  let stop : Nat := begin + width
  let d_first : Nat := (h * ((width + 2 ^ 32 - 1) % 2 ^ 32)) % 2 ^ 32
  let new_pixels ← stdCopy pixels begin (begin + s) new_pixels d_first
  stdCopy pixels (begin + s + 1) stop new_pixels (d_first + s)

/-- Source: `removeVerticalSeam(seam, pixels, width, height)`. -/
def removeVerticalSeam (seam : List Nat) (pixels : List RGB) (width height : Nat) :
    Option (List RGB) :=
  forLoop (removeVerticalSeam_row seam pixels width) 0 height
    (List.replicate ((height * ((width + 2 ^ 32 - 1) % 2 ^ 32)) % 2 ^ 32) RGB.zero)

/-! ## `getHorizontalSeam` -/

/-- One pass of the innermost loop body of `getHorizontalSeam` (lines 154-168)
for column `w`, row `y` and offset `i`. -/
def getHorizontalSeam_step (A : Arith) (pixels : List RGB) (width height w y : Nat)
    (paths : Paths) (i : Int) : Option Paths := do
  let source : Int := (y : Int) + i
  let here : Nat := (w + y * width) % 2 ^ 32
  let col ← paths[w]?
  let cost_here ← col[y]?
  if 0 ≤ source ∧ source < (height : Int) then
    let prev : Nat := ((w - 1) + source.toNat * width) % 2 ^ 32
    let p_here ← pixels[here]?
    let p_prev ← pixels[prev]?
    let delta : Nat := p_here.sub p_prev
    let pcol ← paths[w - 1]?
    let cost_prev ← pcol[source.toNat]?
    if cost_here.prev = -1 ∨ A.add cost_prev.cost delta < cost_here.cost then
      pure (paths.set w (col.set y { cost := A.add cost_prev.cost delta, prev := source }))
    else
      pure paths
  else
    pure paths

/-- The lambda `update(start, stop)` of `getHorizontalSeam` for column `w`. -/
def getHorizontalSeam_update (A : Arith) (pixels : List RGB) (width height w start stop : Nat)
    (paths : Paths) : Option Paths :=
  forLoop (fun y p => [-1, 0, 1].foldlM (getHorizontalSeam_step A pixels width height w y) p)
    start (stop - start) paths

/-- The table `paths` at the end of the column loop of `getHorizontalSeam`
(lines 146-180); the asynchronously launched lower half is run first. -/
def getHorizontalSeam_paths (A : Arith) (pixels : List RGB) (width height : Nat) :
    Option Paths :=
  forLoop
    (fun w paths =>
      (getHorizontalSeam_update A pixels width height w (height / 2) height paths).bind
        (getHorizontalSeam_update A pixels width height w 0 (height / 2)))
    1 (width - 1) (List.replicate width (List.replicate height { cost := 0, prev := -1 }))

/-- Source: `getHorizontalSeam(pixels, width, height)`. -/
def getHorizontalSeam (A : Arith) (pixels : List RGB) (width height : Nat) :
    Option (List Nat) :=
  (getHorizontalSeam_paths A pixels width height).bind fun paths => minPath paths width

/-! ## `removeHorizontalSeam` -/

/-- The inner loop body of `removeHorizontalSeam` (lines 203-208) for column
`w` and row `h`; the state is `(new_pixels, ins_index)`. -/
def removeHorizontalSeam_cell (seam : List Nat) (pixels : List RGB) (width w h : Nat)
    (st : List RGB × Nat) : Option (List RGB × Nat) := do
  let s ← seam[w]?
  if h ≠ s then
    let p ← pixels[(h * width + w) % 2 ^ 32]?
    if st.2 < st.1.length then
      pure (st.1.set st.2 p, st.2 + width)
    else none
  else
    pure st

/-- The outer loop body of `removeHorizontalSeam` for column `w`. -/
def removeHorizontalSeam_col (seam : List Nat) (pixels : List RGB) (width height w : Nat)
    (new_pixels : List RGB) : Option (List RGB) :=
  (forLoop (removeHorizontalSeam_cell seam pixels width w) 0 height (new_pixels, w)).map
    Prod.fst

/-- Source: `removeHorizontalSeam(seam, pixels, width, height)`. -/
def removeHorizontalSeam (seam : List Nat) (pixels : List RGB) (width height : Nat) :
    Option (List RGB) :=
  forLoop (removeHorizontalSeam_col seam pixels width height) 0 width
    (List.replicate ((((height + 2 ^ 32 - 1) % 2 ^ 32) * width) % 2 ^ 32) RGB.zero)

/-! ## The resize handler of `main` -/

/-- The variables of `main` the resize handler reads and writes: the decoded
image (`orig_pixels`, `width`, `height`) and the carved one. -/
structure CarveState where
  orig_pixels : List RGB
  width : Nat
  height : Nat
  cur_pixels : List RGB
  cur_width : Nat
  cur_height : Nat
  deriving DecidableEq, Repr

/-- The state of `main` right after the image is decoded (lines 237-290). -/
def CarveState.init (orig_pixels : List RGB) (width height : Nat) : CarveState :=
  { orig_pixels := orig_pixels, width := width, height := height,
    cur_pixels := orig_pixels, cur_width := width, cur_height := height }

/-- One iteration of the loop of lines 364-369. -/
def carveVertical (A : Arith) (last_width last_height i : Nat) (cur_pixels : List RGB) :
    Option (List RGB) :=
  (getVerticalSeam A cur_pixels ((last_width + 2 ^ 32 - i) % 2 ^ 32) last_height).bind fun seam =>
    removeVerticalSeam seam cur_pixels ((last_width + 2 ^ 32 - i) % 2 ^ 32) last_height

/-- One iteration of the loop of lines 374-379. -/
def carveHorizontal (A : Arith) (cur_width last_height i : Nat) (cur_pixels : List RGB) :
    Option (List RGB) :=
  (getHorizontalSeam A cur_pixels cur_width ((last_height + 2 ^ 32 - i) % 2 ^ 32)).bind fun seam =>
    removeHorizontalSeam seam cur_pixels cur_width ((last_height + 2 ^ 32 - i) % 2 ^ 32)

/-- The `SDL_WINDOWEVENT_RESIZED` case of `main` (lines 340-380) for the
event data `data1`, `data2` (`Sint32`). -/
def resize (A : Arith) (st : CarveState) (data1 data2 : Int) : Option CarveState :=
  let grew : Bool := decide (toU32 data1 > st.cur_width ∨ toU32 data2 > st.cur_height)
  let cur_pixels := if grew then st.orig_pixels else st.cur_pixels
  let last_width := if grew then st.width else st.cur_width
  let last_height := if grew then st.height else st.cur_height
  let cur_width := toU32 data1
  let cur_height := toU32 data2
  ((if cur_width < last_width then
      forLoop (carveVertical A last_width last_height) 0 (last_width - cur_width) cur_pixels
    else some cur_pixels).bind fun cur_pixels =>
    (if cur_height < last_height then
      forLoop (carveHorizontal A cur_width last_height) 0 (last_height - cur_height) cur_pixels
    else some cur_pixels)).map fun cur_pixels =>
      { st with cur_pixels := cur_pixels, cur_width := cur_width, cur_height := cur_height }

/-! ## Functional description of the DP table

The definitions below restate the table computed by the seam finders as a
function of the cell coordinates; the theorems relate them to the loops above. -/

/-- The exact sum of squared channel differences of two pixels. -/
def dissimilarity (a b : RGB) : Int :=
  ((a.red.val : Int) - (b.red.val : Int)) ^ 2 + ((a.green.val : Int) - (b.green.val : Int)) ^ 2
    + ((a.blue.val : Int) - (b.blue.val : Int)) ^ 2

/-- The pixel in row `h` and column `x` of a row-major buffer of the given width. -/
def pixelAt (pixels : List RGB) (width h x : Nat) : RGB :=
  pixels.getD (h * width + x) RGB.zero

/-- A list given by its entries. -/
def rowOf {α : Type} (n : Nat) (g : Nat → α) : List α := (List.range n).map g

/-- A table given by its cells: `layers` rows of `n` cells. -/
def tab (layers n : Nat) (f : Nat → Nat → SeamValue) : Paths :=
  rowOf layers fun r => rowOf n (f r)

/-- Overwrite the cell `(r, x)` of a table given by its cells. -/
def upd2 (f : Nat → Nat → SeamValue) (r x : Nat) (v : SeamValue) : Nat → Nat → SeamValue :=
  fun r' x' => if r' = r ∧ x' = x then v else f r' x'

/-- The effect of one pass of the innermost loop on the cell being filled:
`prevCost c` is the cumulative cost of cell `c` of the previous layer and
`delta c` the dissimilarity to it. -/
def relax (A : Arith) (n x : Nat) (prevCost delta : Nat → Nat) (cur : SeamValue) (i : Int) :
    SeamValue :=
  if 0 ≤ (x : Int) + i ∧ (x : Int) + i < (n : Int) then
    if cur.prev = -1 ∨ A.add (prevCost ((x : Int) + i).toNat) (delta ((x : Int) + i).toNat) < cur.cost
    then { cost := A.add (prevCost ((x : Int) + i).toNat) (delta ((x : Int) + i).toNat),
           prev := (x : Int) + i }
    else cur
  else cur

/-- The three passes `i = -1, 0, 1` on one cell. -/
def cellFrom (A : Arith) (n x : Nat) (prevCost delta : Nat → Nat) (cur : SeamValue) : SeamValue :=
  [-1, 0, 1].foldl (relax A n x prevCost delta) cur

/-- The DP table as a function: `delta h x c` is the dissimilarity between
cell `x` of layer `h` and cell `c` of layer `h - 1`. -/
def dp (A : Arith) (n : Nat) (delta : Nat → Nat → Nat → Nat) : Nat → Nat → SeamValue
  | 0, _ => { cost := 0, prev := -1 }
  | h + 1, x => cellFrom A n x (fun c => (dp A n delta h c).cost) (delta (h + 1) x)
    { cost := 0, prev := -1 }

/-- The dissimilarities read by `getVerticalSeam`. -/
def vDelta (pixels : List RGB) (width : Nat) (h x c : Nat) : Nat :=
  (pixelAt pixels width h x).sub (pixelAt pixels width (h - 1) c)

/-- The dissimilarities read by `getHorizontalSeam`. -/
def hDelta (pixels : List RGB) (width : Nat) (w y c : Nat) : Nat :=
  (pixelAt pixels width y w).sub (pixelAt pixels width c (w - 1))

/-- Well-formed input of the carving core: a non-empty `width` by `height`
buffer whose pixel count fits the `int` and `uint32_t` index arithmetic of
the source (`main` computes it as the `int` product `bmp->h * bmp->w`). -/
def WellFormed (pixels : List RGB) (width height : Nat) : Prop :=
  1 ≤ width ∧ 1 ≤ height ∧ pixels.length = width * height ∧ width * height < 2 ^ 31

/-- The seam `s` ends in column `m` of the last layer and, above layer `lo`,
every entry is the predecessor stored in the table `f` for the entry of the
next layer. -/
def Follows (f : Nat → Nat → SeamValue) (layers n m lo : Nat) (s : List Nat) : Prop :=
  s.length = layers ∧ s[layers - 1]? = some m ∧
    ∀ r, lo < r → r < layers →
      ∃ a b, s[r - 1]? = some a ∧ s[r]? = some b ∧ b < n ∧ (a : Int) = (f r b).prev

/-- Column `m` holds the first minimum of the costs `g 0, ..., g (n - 1)`. -/
def FirstMin (g : Nat → SeamValue) (n m : Nat) : Prop :=
  m < n ∧ (∀ j, j < n → (g m).cost ≤ (g j).cost) ∧ ∀ j, j < m → (g m).cost < (g j).cost

/-- A seam over `layers` layers of `n` cells: one entry per layer, every entry
below `n`, consecutive entries at most one apart. -/
def IsSeam (s : List Nat) (layers n : Nat) : Prop :=
  s.length = layers ∧ (∀ i, i < layers → s.getD i 0 < n) ∧
    ∀ i, i + 1 < layers →
      s.getD i 0 ≤ s.getD (i + 1) 0 + 1 ∧ s.getD (i + 1) 0 ≤ s.getD i 0 + 1

/-- The cost of the first `h` steps of the path `s` for the step costs `delta`. -/
def costUpTo (delta : Nat → Nat → Nat → Nat) (s : List Nat) : Nat → Nat
  | 0 => 0
  | h + 1 => costUpTo delta s h + delta (h + 1) (s.getD (h + 1) 0) (s.getD h 0)

/-- The total cost of a vertical path `s`: the sum over the rows `h = 1, ...,
s.length - 1` of the exact dissimilarity between the pixel of the path in row
`h` and the pixel of the path in row `h - 1`. -/
def pathCost (pixels : List RGB) (width : Nat) (s : List Nat) : Int :=
  ((List.range (s.length - 1)).map fun h =>
    dissimilarity (pixelAt pixels width (h + 1) (s.getD (h + 1) 0))
      (pixelAt pixels width h (s.getD h 0))).sum

/-- The entry of the DP table `paths` for cell `x` of layer `h`. -/
def entry (paths : Paths) (h x : Nat) : SeamValue :=
  (paths.getD h []).getD x { cost := 0, prev := -1 }

/-- A pixel as `main` builds it (line 280): opaque alpha `0xFF`. -/
def px (r g b : Fin 256) : RGB := { alpha := 255, blue := b, green := g, red := r }

/-- The 3 by 2 buffer of the concrete scenario: row 0 is black, `(10,10,10)`,
black; row 1 is black throughout. -/
def scenario : List RGB :=
  [px 0 0 0, px 10 10 10, px 0 0 0, px 0 0 0, px 0 0 0, px 0 0 0]

/-- The carving sequence in words: `k` vertical carve steps, each a
`getVerticalSeam` followed by `removeVerticalSeam`, the width going down by
one per step and the height fixed. -/
def verticalCarves (A : Arith) : Nat → List RGB → Nat → Nat → Option (List RGB)
  | 0, pixels, _, _ => some pixels
  | k + 1, pixels, width, height =>
    ((getVerticalSeam A pixels width height).bind fun seam =>
        removeVerticalSeam seam pixels width height).bind fun pixels' =>
      verticalCarves A k pixels' (width - 1) height

/-- The carving sequence in words: `k` horizontal carve steps, each a
`getHorizontalSeam` followed by `removeHorizontalSeam`, the height going down
by one per step and the width fixed. -/
def horizontalCarves (A : Arith) : Nat → List RGB → Nat → Nat → Option (List RGB)
  | 0, pixels, _, _ => some pixels
  | k + 1, pixels, width, height =>
    ((getHorizontalSeam A pixels width height).bind fun seam =>
        removeHorizontalSeam seam pixels width height).bind fun pixels' =>
      horizontalCarves A k pixels' width (height - 1)

/-- The handler run on a sequence of resize requests `(targetWidth, targetHeight)`. -/
def resizeAll (A : Arith) (st : CarveState) : List (Nat × Nat) → Option CarveState
  | [] => some st
  | req :: rest => (resize A st (req.1 : Int) (req.2 : Int)).bind fun st' => resizeAll A st' rest

/-- A 3 by 3 buffer with unequal rows: row 0 is black, `(10,10,10)`, black;
rows 1 and 2 are `(7,0,0)`, `(10,9,10)`, `(50,0,0)`. -/
def stripes : List RGB :=
  [px 0 0 0, px 10 10 10, px 0 0 0, px 7 0 0, px 10 9 10, px 50 0 0,
    px 7 0 0, px 10 9 10, px 50 0 0]

/-- The pixel `p` with its alpha channel set to `a`. -/
def RGB.withAlpha (p : RGB) (a : Fin 256) : RGB := { p with alpha := a }

/-- The row loop of `getVerticalSeam` with the row split at column `k`
instead of `width / 2`: each row is filled by `update(0, k)` and
`update(k, width)`, the left call first when `leftFirst` holds and the right
call first otherwise. -/
def getVerticalSeam_paths_split (A : Arith) (pixels : List RGB) (width height k : Nat)
    (leftFirst : Bool) : Option Paths :=
  forLoop
    (fun h paths =>
      if leftFirst then
        (getVerticalSeam_update A pixels width h 0 k paths).bind
          (getVerticalSeam_update A pixels width h k width)
      else
        (getVerticalSeam_update A pixels width h k width paths).bind
          (getVerticalSeam_update A pixels width h 0 k))
    1 (height - 1) (List.replicate height (List.replicate width { cost := 0, prev := -1 }))

/-- The seam found from the table of `getVerticalSeam_paths_split`. -/
def getVerticalSeam_split (A : Arith) (pixels : List RGB) (width height k : Nat)
    (leftFirst : Bool) : Option (List Nat) :=
  (getVerticalSeam_paths_split A pixels width height k leftFirst).bind fun paths =>
    minPath paths height

/-- The column loop of `getHorizontalSeam` with the column split at row `k`
instead of `height / 2`: each column is filled by `update(0, k)` and
`update(k, height)`, the upper call first when `upperFirst` holds and the
lower call first otherwise. -/
def getHorizontalSeam_paths_split (A : Arith) (pixels : List RGB) (width height k : Nat)
    (upperFirst : Bool) : Option Paths :=
  forLoop
    (fun w paths =>
      if upperFirst then
        (getHorizontalSeam_update A pixels width height w 0 k paths).bind
          (getHorizontalSeam_update A pixels width height w k height)
      else
        (getHorizontalSeam_update A pixels width height w k height paths).bind
          (getHorizontalSeam_update A pixels width height w 0 k))
    1 (width - 1) (List.replicate width (List.replicate height { cost := 0, prev := -1 }))

/-- The seam found from the table of `getHorizontalSeam_paths_split`. -/
def getHorizontalSeam_split (A : Arith) (pixels : List RGB) (width height k : Nat)
    (upperFirst : Bool) : Option (List Nat) :=
  (getHorizontalSeam_paths_split A pixels width height k upperFirst).bind fun paths =>
    minPath paths width

/-! # Theorems -/

/-! ## The cost model -/

theorem toU32_of_nonneg (v : Int) (h0 : 0 ≤ v) (h1 : v < 2 ^ 32) : toU32 v = v.toNat := by
  unfold toU32
  rw [Int.emod_eq_of_lt h0 h1]

theorem toU32_natCast (n : Nat) (h : n < 2 ^ 32) : toU32 (n : Int) = n := by
  rw [toU32_of_nonneg _ (Int.natCast_nonneg n) (by exact_mod_cast h)]
  simp

theorem square_toU32_sub (x y : Nat) (hx : x < 256) (hy : y < 256) :
    square (toU32 ((x : Int) - (y : Int))) = (x - y) * (x - y) + (y - x) * (y - x) ∧
      (x - y) * (x - y) + (y - x) * (y - x) ≤ 65025 := by
  have hb : ∀ d : Nat, d < 256 → d * d ≤ 65025 := by
    intro d hd
    have : d ≤ 255 := by omega
    calc d * d ≤ 255 * 255 := Nat.mul_le_mul this this
      _ = 65025 := by norm_num
  rcases le_or_lt y x with h | h
  · have h1 : toU32 ((x : Int) - (y : Int)) = x - y := by
      have : ((x : Int) - (y : Int)) = ((x - y : Nat) : Int) := by omega
      rw [this, toU32_natCast]
      omega
    have h2 : y - x = 0 := by omega
    have h3 := hb (x - y) (by omega)
    rw [h1, h2]
    unfold square
    rw [Nat.mod_eq_of_lt (by omega)]
    exact ⟨by simp, by simpa using h3⟩
  · have h1 : toU32 ((x : Int) - (y : Int)) = 2 ^ 32 - (y - x) := by
      unfold toU32
      have : ((x : Int) - (y : Int)) % 2 ^ 32 = ((2 ^ 32 - (y - x) : Nat) : Int) := by omega
      rw [this]
      simp
    have h2 : x - y = 0 := by omega
    have h3 := hb (y - x) (by omega)
    rw [h1, h2]
    unfold square
    have h4 : (2 ^ 32 - (y - x)) * (2 ^ 32 - (y - x))
        = (y - x) * (y - x) + 2 ^ 32 * (2 ^ 32 - 2 * (y - x)) := by
      obtain ⟨e, he⟩ : ∃ e, 2 ^ 32 = e + 2 * (y - x) := ⟨2 ^ 32 - 2 * (y - x), by omega⟩
      generalize y - x = d at he ⊢
      rw [he]
      have e1 : e + 2 * d - d = e + d := by omega
      have e2 : e + 2 * d - 2 * d = e := by omega
      rw [e1, e2]
      ring
    rw [h4, Nat.add_mul_mod_self_left, Nat.mod_eq_of_lt (by omega)]
    exact ⟨by simp, by simpa using h3⟩

theorem sq_int_sub (x y : Nat) :
    ((x : Int) - (y : Int)) ^ 2 = (((x - y) * (x - y) + (y - x) * (y - x) : Nat) : Int) := by
  rcases le_total y x with h | h
  · have h2 : y - x = 0 := by omega
    rw [h2]
    push_cast [Nat.cast_sub h]
    ring
  · have h2 : x - y = 0 := by omega
    rw [h2]
    push_cast [Nat.cast_sub h]
    ring

theorem rgb_sub_cast (a b : RGB) : ((a.sub b : Nat) : Int) = dissimilarity a b := by
  obtain ⟨r1, r2⟩ := square_toU32_sub a.red.val b.red.val a.red.isLt b.red.isLt
  obtain ⟨g1, g2⟩ := square_toU32_sub a.green.val b.green.val a.green.isLt b.green.isLt
  obtain ⟨b1, b2⟩ := square_toU32_sub a.blue.val b.blue.val a.blue.isLt b.blue.isLt
  unfold RGB.sub dissimilarity
  rw [r1, g1, b1, sq_int_sub, sq_int_sub, sq_int_sub]
  rw [Nat.mod_eq_of_lt (a := _ + _) (by omega), Nat.mod_eq_of_lt (by omega)]
  push_cast
  ring

/-- C5: the 32-bit `operator-` on pixels equals the exact sum of squared
channel differences, also when a channel of `a` is below that of `b`, and is
at most 195075. -/
theorem RGB_sub_exact (a b : RGB) :
    ((a.sub b : Nat) : Int) = dissimilarity a b ∧ a.sub b ≤ 195075 := by
  obtain ⟨r1, r2⟩ := square_toU32_sub a.red.val b.red.val a.red.isLt b.red.isLt
  obtain ⟨g1, g2⟩ := square_toU32_sub a.green.val b.green.val a.green.isLt b.green.isLt
  obtain ⟨b1, b2⟩ := square_toU32_sub a.blue.val b.blue.val a.blue.isLt b.blue.isLt
  unfold RGB.sub dissimilarity
  rw [r1, g1, b1, sq_int_sub, sq_int_sub, sq_int_sub]
  rw [Nat.mod_eq_of_lt (a := _ + _) (by omega), Nat.mod_eq_of_lt (by omega)]
  refine ⟨by push_cast; ring, by omega⟩

/-! ## Tables given by their cells -/

theorem length_rowOf {α : Type} (n : Nat) (g : Nat → α) : (rowOf n g).length = n := by
  simp [rowOf]

theorem getElem?_rowOf {α : Type} (n : Nat) (g : Nat → α) (x : Nat) :
    (rowOf n g)[x]? = if x < n then some (g x) else none := by
  unfold rowOf
  by_cases hx : x < n
  · simp [hx, List.getElem?_range hx]
  · have : (List.map g (List.range n)).length ≤ x := by simp; omega
    simp [hx, List.getElem?_eq_none this]

theorem getElem?_rowOf_lt {α : Type} {n : Nat} (g : Nat → α) {x : Nat} (hx : x < n) :
    (rowOf n g)[x]? = some (g x) := by
  simp [getElem?_rowOf, hx]

theorem rowOf_congr {α : Type} {n : Nat} {g g' : Nat → α} (h : ∀ x, x < n → g x = g' x) :
    rowOf n g = rowOf n g' := by
  apply List.ext_getElem?
  intro x
  rw [getElem?_rowOf, getElem?_rowOf]
  by_cases hx : x < n
  · simp [hx, h x hx]
  · simp [hx]

theorem rowOf_set {α : Type} (n : Nat) (g : Nat → α) (x : Nat) (v : α) :
    (rowOf n g).set x v = rowOf n (fun x' => if x' = x then v else g x') := by
  apply List.ext_getElem?
  intro k
  rw [List.getElem?_set, getElem?_rowOf, getElem?_rowOf, length_rowOf]
  by_cases hk : x = k
  · subst hk
    by_cases hx : x < n <;> simp [hx]
  · have hk' : ¬ k = x := fun e => hk e.symm
    simp [hk, hk']

theorem rowOf_const {α : Type} (n : Nat) (v : α) : List.replicate n v = rowOf n fun _ => v := by
  apply List.ext_getElem?
  intro k
  rw [getElem?_rowOf, List.getElem?_replicate]

theorem getElem?_tab {layers n : Nat} (f : Nat → Nat → SeamValue) {r : Nat} (hr : r < layers) :
    (tab layers n f)[r]? = some (rowOf n (f r)) := by
  unfold tab
  rw [getElem?_rowOf_lt _ hr]

theorem tab_congr {layers n : Nat} {f g : Nat → Nat → SeamValue}
    (h : ∀ r x, r < layers → x < n → f r x = g r x) : tab layers n f = tab layers n g := by
  unfold tab
  exact rowOf_congr fun r hr => rowOf_congr fun x hx => h r x hr hx

theorem tab_set (layers n : Nat) (f : Nat → Nat → SeamValue) (r x : Nat) (v : SeamValue) :
    (tab layers n f).set r ((rowOf n (f r)).set x v) = tab layers n (upd2 f r x v) := by
  unfold tab
  rw [rowOf_set, rowOf_set]
  apply rowOf_congr
  intro r' _
  by_cases hr : r' = r
  · subst hr
    simp only [if_true]
    exact rowOf_congr fun x' _ => by simp [upd2]
  · simp only [hr, if_false]
    exact rowOf_congr fun x' _ => by simp [upd2, hr]

theorem tab_init (layers n : Nat) (v : SeamValue) :
    List.replicate layers (List.replicate n v) = tab layers n fun _ _ => v := by
  unfold tab
  rw [rowOf_const n v, rowOf_const layers]

theorem upd2_self (f : Nat → Nat → SeamValue) (r x : Nat) : upd2 f r x (f r x) = f := by
  funext r' x'
  unfold upd2
  split
  · rename_i h
    rw [h.1, h.2]
  · rfl

theorem getElem?_pixels (pixels : List RGB) (i : Nat) (h : i < pixels.length) :
    pixels[i]? = some (pixels.getD i RGB.zero) := by
  simp [List.getD, List.getElem?_eq_getElem h]

theorem cell_index_lt {width height h x : Nat} (hh : h < height) (hx : x < width) :
    h * width + x < width * height := by
  calc h * width + x < h * width + width := by omega
    _ = (h + 1) * width := by ring
    _ ≤ height * width := Nat.mul_le_mul_right _ hh
    _ = width * height := Nat.mul_comm _ _

theorem getVerticalSeam_step_tab (A : Arith) (pixels : List RGB) (width height h x : Nat)
    (hwf : WellFormed pixels width height) (h1 : 1 ≤ h) (hh : h < height) (hx : x < width)
    (f : Nat → Nat → SeamValue) (i : Int) :
    getVerticalSeam_step A pixels width h x (tab height width f) i
      = some (tab height width (upd2 f h x
          (relax A width x (fun c => (f (h - 1) c).cost) (vDelta pixels width h x) (f h x) i))) := by
  obtain ⟨hw1, hh1, hlen, hsz⟩ := hwf
  have hh' : h - 1 < height := by omega
  have hhere := cell_index_lt hh hx
  unfold getVerticalSeam_step relax
  simp only [getElem?_tab f hh, getElem?_rowOf_lt (f h) hx, getElem?_tab f hh', Option.bind_eq_bind,
    Option.some_bind, Option.pure_def]
  by_cases hs : 0 ≤ (x : Int) + i ∧ (x : Int) + i < (width : Int)
  · have hc : ((x : Int) + i).toNat < width := by omega
    have hprev := cell_index_lt hh' hc
    rw [if_pos hs, if_pos hs, Nat.mod_eq_of_lt (by omega), Nat.mod_eq_of_lt (by omega),
      getElem?_pixels _ _ (by omega), getElem?_pixels _ _ (by omega)]
    simp only [Option.some_bind, getElem?_rowOf_lt (f (h - 1)) hc]
    have hd : (pixels.getD (h * width + x) RGB.zero).sub
        (pixels.getD ((h - 1) * width + ((x : Int) + i).toNat) RGB.zero)
          = vDelta pixels width h x ((x : Int) + i).toNat := rfl
    rw [hd]
    split
    · rw [tab_set]
    · rw [upd2_self]
  · rw [if_neg hs, if_neg hs, upd2_self]

theorem upd2_upd2 (f : Nat → Nat → SeamValue) (r x : Nat) (v v' : SeamValue) :
    upd2 (upd2 f r x v) r x v' = upd2 f r x v' := by
  funext r' x'
  unfold upd2
  split <;> rfl

theorem upd2_same (f : Nat → Nat → SeamValue) (r x : Nat) (v : SeamValue) :
    upd2 f r x v r x = v := by
  simp [upd2]

theorem upd2_prev (f : Nat → Nat → SeamValue) (h x : Nat) (v : SeamValue) (h1 : 1 ≤ h) (c : Nat) :
    upd2 f h x v (h - 1) c = f (h - 1) c := by
  have : ¬ (h - 1 = h) := by omega
  simp [upd2, this]

theorem cell_loop (step : Nat → Paths → Int → Option Paths) (A : Arith) (layers n h : Nat)
    (dh : Nat → Nat → Nat) (h1 : 1 ≤ h)
    (hstep : ∀ (f : Nat → Nat → SeamValue) (x : Nat) (i : Int), x < n →
      step x (tab layers n f) i = some (tab layers n (upd2 f h x
        (relax A n x (fun c => (f (h - 1) c).cost) (dh x) (f h x) i))))
    (f : Nat → Nat → SeamValue) (x : Nat) (hx : x < n) :
    [-1, 0, 1].foldlM (step x) (tab layers n f) = some (tab layers n (upd2 f h x
        (cellFrom A n x (fun c => (f (h - 1) c).cost) (dh x) (f h x)))) := by
  simp only [List.foldlM, hstep _ x _ hx, Option.bind_eq_bind, Option.some_bind, Option.pure_def,
    upd2_upd2, upd2_same, upd2_prev _ _ _ _ h1, cellFrom, List.foldl]

theorem update_loop (step : Nat → Paths → Int → Option Paths) (A : Arith) (layers n h : Nat)
    (dh : Nat → Nat → Nat) (h1 : 1 ≤ h)
    (hstep : ∀ (f : Nat → Nat → SeamValue) (x : Nat) (i : Int), x < n →
      step x (tab layers n f) i = some (tab layers n (upd2 f h x
        (relax A n x (fun c => (f (h - 1) c).cost) (dh x) (f h x) i))))
    (count : Nat) : ∀ (start : Nat) (f : Nat → Nat → SeamValue), start + count ≤ n →
    forLoop (fun x p => [-1, 0, 1].foldlM (step x) p) start count (tab layers n f)
      = some (tab layers n fun r x =>
          if r = h ∧ start ≤ x ∧ x < start + count then
            cellFrom A n x (fun c => (f (h - 1) c).cost) (dh x) (f h x)
          else f r x) := by
  induction count with
  | zero =>
    intro start f _
    have : (fun r x => if r = h ∧ start ≤ x ∧ x < start + 0 then
        cellFrom A n x (fun c => (f (h - 1) c).cost) (dh x) (f h x) else f r x) = f := by
      funext r x
      rw [if_neg (by omega)]
    rw [this]
    rfl
  | succ count ih =>
    intro start f hle
    rw [forLoop, cell_loop step A layers n h dh h1 hstep f start (by omega), Option.some_bind,
      ih (start + 1) _ (by omega)]
    congr 2
    funext r x
    simp only [upd2_prev _ _ _ _ h1]
    by_cases hr : r = h
    · subst hr
      by_cases hx : x = start
      · subst hx
        simp [upd2]
      · by_cases hx2 : start + 1 ≤ x ∧ x < start + 1 + count
        · have hx3 : start ≤ x ∧ x < start + (count + 1) := by omega
          simp [hx2, hx3, upd2, hx]
        · have hx3 : ¬ (start ≤ x ∧ x < start + (count + 1)) := by omega
          simp [hx2, hx3, upd2, hx]
    · simp [hr, upd2]

theorem relax_congr (A : Arith) (n x : Nat) (pc pc' d d' : Nat → Nat)
    (hpc : ∀ c, c < n → pc c = pc' c) (hd : ∀ c, c < n → d c = d' c) (cur : SeamValue) (i : Int) :
    relax A n x pc d cur i = relax A n x pc' d' cur i := by
  unfold relax
  by_cases hs : 0 ≤ (x : Int) + i ∧ (x : Int) + i < (n : Int)
  · have hc : ((x : Int) + i).toNat < n := by omega
    rw [if_pos hs, if_pos hs, hpc _ hc, hd _ hc]
  · rw [if_neg hs, if_neg hs]

theorem cellFrom_congr (A : Arith) (n x : Nat) (pc pc' d d' : Nat → Nat)
    (hpc : ∀ c, c < n → pc c = pc' c) (hd : ∀ c, c < n → d c = d' c) (cur : SeamValue) :
    cellFrom A n x pc d cur = cellFrom A n x pc' d' cur := by
  unfold cellFrom
  simp only [List.foldl, relax_congr A n x pc pc' d d' hpc hd]

theorem row_fill (update : Nat → Nat → Paths → Option Paths) (A : Arith) (layers n h : Nat)
    (dh : Nat → Nat → Nat) (h1 : 1 ≤ h)
    (hupd : ∀ (start stop : Nat) (f : Nat → Nat → SeamValue), start ≤ stop → stop ≤ n →
      update start stop (tab layers n f) = some (tab layers n fun r x =>
          if r = h ∧ start ≤ x ∧ x < stop then
            cellFrom A n x (fun c => (f (h - 1) c).cost) (dh x) (f h x)
          else f r x))
    (f : Nat → Nat → SeamValue) :
    (update (n / 2) n (tab layers n f)).bind (update 0 (n / 2))
      = some (tab layers n fun r x =>
          if r = h ∧ x < n then cellFrom A n x (fun c => (f (h - 1) c).cost) (dh x) (f h x)
          else f r x) := by
  have hhalf : n / 2 ≤ n := Nat.div_le_self n 2
  have hne : ¬ (h - 1 = h) := by omega
  rw [hupd _ _ f hhalf (le_refl n), Option.some_bind, hupd _ _ _ (Nat.zero_le _) hhalf]
  congr 2
  funext r x
  by_cases hr : r = h
  · subst hr
    by_cases hx : x < n / 2
    · have hx' : x < n := by omega
      have hx2 : ¬ (n / 2 ≤ x ∧ x < n) := by omega
      have hx3 : ¬ (n / 2 ≤ x) := by omega
      simp [hx, hx', hx2, hx3, hne]
    · by_cases hx' : x < n
      · have hx2 : n / 2 ≤ x ∧ x < n := by omega
        simp [hx, hx', hx2]
      · have hx2 : ¬ (n / 2 ≤ x ∧ x < n) := by omega
        simp [hx, hx', hx2]
  · simp [hr]

theorem paths_loop (body : Nat → Paths → Option Paths) (A : Arith) (layers n : Nat)
    (delta : Nat → Nat → Nat → Nat)
    (hbody : ∀ (h : Nat) (f : Nat → Nat → SeamValue), 1 ≤ h → h < layers →
      body h (tab layers n f) = some (tab layers n fun r x =>
          if r = h ∧ x < n then cellFrom A n x (fun c => (f (h - 1) c).cost) (delta h x) (f h x)
          else f r x))
    (count : Nat) : ∀ (start : Nat) (f : Nat → Nat → SeamValue), 1 ≤ start →
      start + count ≤ layers →
      (∀ r x, r < start → x < n → f r x = dp A n delta r x) →
      (∀ r x, start ≤ r → f r x = { cost := 0, prev := -1 }) →
      forLoop body start count (tab layers n f) = some (tab layers n fun r x =>
        if r < start + count then dp A n delta r x else { cost := 0, prev := -1 }) := by
  induction count with
  | zero =>
    intro start f _ _ hlo hhi
    rw [forLoop]
    congr 1
    apply tab_congr
    intro r x _ hx
    by_cases hr : r < start
    · simp [hr, hlo r x hr hx]
    · simp [hr, hhi r x (by omega)]
  | succ count ih =>
    intro start f hs hle hlo hhi
    rw [forLoop, hbody start f hs (by omega), Option.some_bind, ih (start + 1) _ (by omega) (by omega)]
    · congr 1
      apply tab_congr
      intro r x _ _
      have : start + 1 + count = start + (count + 1) := by omega
      rw [this]
    · intro r x hr hx
      by_cases hrs : r = start
      · subst hrs
        obtain ⟨s, rfl⟩ : ∃ s, r = s + 1 := ⟨r - 1, by omega⟩
        simp only [hx, and_self, if_true, dp, Nat.add_sub_cancel]
        rw [hhi (s + 1) x (le_refl _)]
        exact cellFrom_congr A n x _ _ _ _ (fun c hc => by rw [hlo s c (by omega) hc])
          (fun c _ => rfl) _
      · simp only [hrs, false_and, if_false]
        exact hlo r x (by omega) hx
    · intro r x hr
      have hrs : ¬ r = start := by omega
      simp only [hrs, false_and, if_false]
      exact hhi r x (by omega)

theorem paths_loop_init (body : Nat → Paths → Option Paths) (A : Arith) (layers n : Nat)
    (delta : Nat → Nat → Nat → Nat) (hl : 1 ≤ layers)
    (hbody : ∀ (h : Nat) (f : Nat → Nat → SeamValue), 1 ≤ h → h < layers →
      body h (tab layers n f) = some (tab layers n fun r x =>
          if r = h ∧ x < n then cellFrom A n x (fun c => (f (h - 1) c).cost) (delta h x) (f h x)
          else f r x)) :
    forLoop body 1 (layers - 1) (List.replicate layers (List.replicate n { cost := 0, prev := -1 }))
      = some (tab layers n (dp A n delta)) := by
  rw [tab_init, paths_loop body A layers n delta hbody (layers - 1) 1 _ (le_refl 1) (by omega)]
  · congr 1
    apply tab_congr
    intro r x hr _
    have : r < 1 + (layers - 1) := by omega
    simp [this]
  · intro r x hr _
    have : r = 0 := by omega
    subst this
    rfl
  · intro r x _
    rfl

theorem getVerticalSeam_update_tab (A : Arith) (pixels : List RGB) (width height h : Nat)
    (hwf : WellFormed pixels width height) (h1 : 1 ≤ h) (hh : h < height)
    (start stop : Nat) (f : Nat → Nat → SeamValue) (hss : start ≤ stop) (hsw : stop ≤ width) :
    getVerticalSeam_update A pixels width h start stop (tab height width f)
      = some (tab height width fun r x =>
          if r = h ∧ start ≤ x ∧ x < stop then
            cellFrom A width x (fun c => (f (h - 1) c).cost) (vDelta pixels width h x) (f h x)
          else f r x) := by
  unfold getVerticalSeam_update
  rw [update_loop (getVerticalSeam_step A pixels width h) A height width h (vDelta pixels width h) h1
    (fun f x i hx => getVerticalSeam_step_tab A pixels width height h x hwf h1 hh hx f i)
    (stop - start) start f (by omega)]
  have : start + (stop - start) = stop := by omega
  rw [this]

theorem getVerticalSeam_paths_eq (A : Arith) (pixels : List RGB) (width height : Nat)
    (hwf : WellFormed pixels width height) :
    getVerticalSeam_paths A pixels width height
      = some (tab height width (dp A width (vDelta pixels width))) := by
  unfold getVerticalSeam_paths
  apply paths_loop_init _ A height width (vDelta pixels width) hwf.2.1
  intro h f h1 hh
  exact row_fill (getVerticalSeam_update A pixels width h) A height width h (vDelta pixels width h) h1
    (fun start stop f hss hsw =>
      getVerticalSeam_update_tab A pixels width height h hwf h1 hh start stop f hss hsw) f

theorem getHorizontalSeam_step_tab (A : Arith) (pixels : List RGB) (width height w y : Nat)
    (hwf : WellFormed pixels width height) (h1 : 1 ≤ w) (hw : w < width) (hy : y < height)
    (f : Nat → Nat → SeamValue) (i : Int) :
    getHorizontalSeam_step A pixels width height w y (tab width height f) i
      = some (tab width height (upd2 f w y
          (relax A height y (fun c => (f (w - 1) c).cost) (hDelta pixels width w y) (f w y) i))) := by
  obtain ⟨hw1, hh1, hlen, hsz⟩ := hwf
  have hw' : w - 1 < width := by omega
  have hhere := cell_index_lt hy hw
  unfold getHorizontalSeam_step relax
  simp only [getElem?_tab f hw, getElem?_rowOf_lt (f w) hy, getElem?_tab f hw', Option.bind_eq_bind,
    Option.some_bind, Option.pure_def]
  by_cases hs : 0 ≤ (y : Int) + i ∧ (y : Int) + i < (height : Int)
  · have hc : ((y : Int) + i).toNat < height := by omega
    have hprev := cell_index_lt hc hw'
    have e1 : w + y * width = y * width + w := by omega
    have e2 : w - 1 + ((y : Int) + i).toNat * width = ((y : Int) + i).toNat * width + (w - 1) := by
      omega
    rw [if_pos hs, if_pos hs, e1, e2, Nat.mod_eq_of_lt (by omega), Nat.mod_eq_of_lt (by omega),
      getElem?_pixels _ _ (by omega), getElem?_pixels _ _ (by omega)]
    simp only [Option.some_bind, getElem?_rowOf_lt (f (w - 1)) hc]
    have hd : (pixels.getD (y * width + w) RGB.zero).sub
        (pixels.getD (((y : Int) + i).toNat * width + (w - 1)) RGB.zero)
          = hDelta pixels width w y ((y : Int) + i).toNat := rfl
    rw [hd]
    split
    · rw [tab_set]
    · rw [upd2_self]
  · rw [if_neg hs, if_neg hs, upd2_self]

theorem getHorizontalSeam_update_tab (A : Arith) (pixels : List RGB) (width height w : Nat)
    (hwf : WellFormed pixels width height) (h1 : 1 ≤ w) (hw : w < width)
    (start stop : Nat) (f : Nat → Nat → SeamValue) (hss : start ≤ stop) (hsw : stop ≤ height) :
    getHorizontalSeam_update A pixels width height w start stop (tab width height f)
      = some (tab width height fun r x =>
          if r = w ∧ start ≤ x ∧ x < stop then
            cellFrom A height x (fun c => (f (w - 1) c).cost) (hDelta pixels width w x) (f w x)
          else f r x) := by
  unfold getHorizontalSeam_update
  rw [update_loop (getHorizontalSeam_step A pixels width height w) A width height w
    (hDelta pixels width w) h1
    (fun f y i hy => getHorizontalSeam_step_tab A pixels width height w y hwf h1 hw hy f i)
    (stop - start) start f (by omega)]
  have : start + (stop - start) = stop := by omega
  rw [this]

theorem getHorizontalSeam_paths_eq (A : Arith) (pixels : List RGB) (width height : Nat)
    (hwf : WellFormed pixels width height) :
    getHorizontalSeam_paths A pixels width height
      = some (tab width height (dp A height (hDelta pixels width))) := by
  unfold getHorizontalSeam_paths
  apply paths_loop_init _ A width height (hDelta pixels width) hwf.1
  intro w f h1 hw
  exact row_fill (getHorizontalSeam_update A pixels width height w) A width height w
    (hDelta pixels width w) h1
    (fun start stop f hss hsw =>
      getHorizontalSeam_update_tab A pixels width height w hwf h1 hw start stop f hss hsw) f

theorem relax_in (A : Arith) (n x : Nat) (pc d : Nat → Nat) (cur : SeamValue) (i : Int) (c : Nat)
    (hc : (x : Int) + i = (c : Int)) (hn : c < n) :
    relax A n x pc d cur i
      = if cur.prev = -1 ∨ A.add (pc c) (d c) < cur.cost then
          { cost := A.add (pc c) (d c), prev := (c : Int) }
        else cur := by
  unfold relax
  have hs : 0 ≤ (x : Int) + i ∧ (x : Int) + i < (n : Int) := by omega
  rw [if_pos hs, hc, Int.toNat_ofNat]

theorem relax_out (A : Arith) (n x : Nat) (pc d : Nat → Nat) (cur : SeamValue) (i : Int)
    (hs : ¬ (0 ≤ (x : Int) + i ∧ (x : Int) + i < (n : Int))) :
    relax A n x pc d cur i = cur := by
  unfold relax
  rw [if_neg hs]

/-- The cell computed by the three passes: it holds the least candidate
total and the smallest candidate column attaining it. -/
theorem cellFrom_best (A : Arith) (n x : Nat) (pc d : Nat → Nat) (hx : x < n) :
    ∃ c : Nat, (cellFrom A n x pc d { cost := 0, prev := -1 }).prev = (c : Int) ∧
      (cellFrom A n x pc d { cost := 0, prev := -1 }).cost = A.add (pc c) (d c) ∧
      c < n ∧ x ≤ c + 1 ∧ c ≤ x + 1 ∧
      ∀ c' : Nat, c' < n → x ≤ c' + 1 → c' ≤ x + 1 →
        A.add (pc c) (d c) ≤ A.add (pc c') (d c') ∧
        (A.add (pc c') (d c') = A.add (pc c) (d c) → c ≤ c') := by
  unfold cellFrom
  simp only [List.foldl]
  rw [relax_in A n x pc d _ 0 x (by simp) hx]
  rcases Nat.eq_zero_or_pos x with h0 | h0
  · subst h0
    rw [relax_out A n 0 pc d _ (-1) (by omega)]
    simp only [true_or, if_true]
    by_cases h1 : 1 < n
    · rw [relax_in A n 0 pc d _ 1 1 (by simp) h1]
      by_cases hlt : A.add (pc 1) (d 1) < A.add (pc 0) (d 0)
      · have hcond : ((0 : Int) = -1 ∨ A.add (pc 1) (d 1) < A.add (pc 0) (d 0)) := Or.inr hlt
        simp only [Nat.cast_zero, hcond, if_true]
        refine ⟨1, rfl, rfl, h1, by omega, by omega, ?_⟩
        intro c' _ _ hc'
        have : c' = 0 ∨ c' = 1 := by omega
        rcases this with rfl | rfl
        · exact ⟨by omega, by omega⟩
        · exact ⟨le_refl _, fun _ => le_refl _⟩
      · have hcond : ¬ ((0 : Int) = -1 ∨ A.add (pc 1) (d 1) < A.add (pc 0) (d 0)) := by
          rintro (h | h)
          · omega
          · exact hlt h
        simp only [Nat.cast_zero, hcond, if_false]
        refine ⟨0, rfl, rfl, hx, by omega, by omega, ?_⟩
        intro c' _ _ hc'
        have : c' = 0 ∨ c' = 1 := by omega
        rcases this with rfl | rfl
        · exact ⟨le_refl _, fun _ => le_refl _⟩
        · exact ⟨by omega, fun _ => by omega⟩
    · rw [relax_out A n 0 pc d _ 1 (by omega)]
      refine ⟨0, rfl, rfl, hx, by omega, by omega, ?_⟩
      intro c' hc' _ _
      have : c' = 0 := by omega
      subst this
      exact ⟨le_refl _, fun _ => le_refl _⟩
  · obtain ⟨y, rfl⟩ : ∃ y, x = y + 1 := ⟨x - 1, by omega⟩
    rw [relax_in A n (y + 1) pc d _ (-1) y (by push_cast; ring) (by omega)]
    simp only [true_or, if_true]
    have hne : ∀ k : Nat, ¬ ((k : Int) = -1) := fun k => by omega
    by_cases hlt0 : A.add (pc (y + 1)) (d (y + 1)) < A.add (pc y) (d y)
    · simp only [hne, false_or, hlt0, if_true]
      by_cases h1 : y + 1 + 1 < n
      · rw [relax_in A n (y + 1) pc d _ 1 (y + 1 + 1) (by push_cast; ring) h1]
        simp only [hne, false_or]
        by_cases hlt : A.add (pc (y + 1 + 1)) (d (y + 1 + 1)) < A.add (pc (y + 1)) (d (y + 1))
        · simp only [hlt, if_true]
          refine ⟨y + 1 + 1, rfl, rfl, h1, by omega, by omega, ?_⟩
          intro c' _ hc1 hc2
          have : c' = y ∨ c' = y + 1 ∨ c' = y + 1 + 1 := by omega
          rcases this with rfl | rfl | rfl
          · exact ⟨by omega, by omega⟩
          · exact ⟨by omega, by omega⟩
          · exact ⟨le_refl _, fun _ => le_refl _⟩
        · simp only [hlt, if_false]
          refine ⟨y + 1, rfl, rfl, hx, by omega, by omega, ?_⟩
          intro c' _ hc1 hc2
          have : c' = y ∨ c' = y + 1 ∨ c' = y + 1 + 1 := by omega
          rcases this with rfl | rfl | rfl
          · exact ⟨by omega, by omega⟩
          · exact ⟨le_refl _, fun _ => le_refl _⟩
          · exact ⟨by omega, fun _ => by omega⟩
      · rw [relax_out A n (y + 1) pc d _ 1 (by omega)]
        refine ⟨y + 1, rfl, rfl, hx, by omega, by omega, ?_⟩
        intro c' hc' hc1 hc2
        have : c' = y ∨ c' = y + 1 := by omega
        rcases this with rfl | rfl
        · exact ⟨by omega, by omega⟩
        · exact ⟨le_refl _, fun _ => le_refl _⟩
    · simp only [hne, false_or, hlt0, if_false]
      by_cases h1 : y + 1 + 1 < n
      · rw [relax_in A n (y + 1) pc d _ 1 (y + 1 + 1) (by push_cast; ring) h1]
        simp only [hne, false_or]
        by_cases hlt : A.add (pc (y + 1 + 1)) (d (y + 1 + 1)) < A.add (pc y) (d y)
        · simp only [hlt, if_true]
          refine ⟨y + 1 + 1, rfl, rfl, h1, by omega, by omega, ?_⟩
          intro c' _ hc1 hc2
          have : c' = y ∨ c' = y + 1 ∨ c' = y + 1 + 1 := by omega
          rcases this with rfl | rfl | rfl
          · exact ⟨by omega, by omega⟩
          · exact ⟨by omega, by omega⟩
          · exact ⟨le_refl _, fun _ => le_refl _⟩
        · simp only [hlt, if_false]
          refine ⟨y, rfl, rfl, by omega, by omega, by omega, ?_⟩
          intro c' _ hc1 hc2
          have : c' = y ∨ c' = y + 1 ∨ c' = y + 1 + 1 := by omega
          rcases this with rfl | rfl | rfl
          · exact ⟨le_refl _, fun _ => le_refl _⟩
          · exact ⟨by omega, fun _ => by omega⟩
          · exact ⟨by omega, fun _ => by omega⟩
      · rw [relax_out A n (y + 1) pc d _ 1 (by omega)]
        refine ⟨y, rfl, rfl, by omega, by omega, by omega, ?_⟩
        intro c' hc' hc1 hc2
        have : c' = y ∨ c' = y + 1 := by omega
        rcases this with rfl | rfl
        · exact ⟨le_refl _, fun _ => le_refl _⟩
        · exact ⟨by omega, fun _ => by omega⟩

theorem minElementFrom_spec (n : Nat) (g : Nat → SeamValue) (count : Nat) :
    ∀ idx smallest : Nat, idx + count = n → smallest < idx →
      (∀ j, j < idx → (g smallest).cost ≤ (g j).cost) →
      (∀ j, j < smallest → (g smallest).cost < (g j).cost) →
      FirstMin g n (minElementFrom (rowOf n g) idx count smallest) := by
  induction count with
  | zero =>
    intro idx smallest hn hs hle hlt
    rw [minElementFrom]
    exact ⟨by omega, fun j hj => hle j (by omega), hlt⟩
  | succ count ih =>
    intro idx smallest hn hs hle hlt
    rw [minElementFrom, getElem?_rowOf_lt g (by omega : idx < n),
      getElem?_rowOf_lt g (by omega : smallest < n)]
    simp only
    split
    · rename_i hc
      apply ih (idx + 1) idx (by omega) (by omega)
      · intro j hj
        rcases Nat.lt_or_ge j idx with h | h
        · have := hle j h
          omega
        · have : j = idx := by omega
          subst this
          exact le_refl _
      · intro j hj
        have := hle j hj
        omega
    · rename_i hc
      apply ih (idx + 1) smallest (by omega) (by omega)
      · intro j hj
        rcases Nat.lt_or_ge j idx with h | h
        · exact hle j h
        · have : j = idx := by omega
          subst this
          omega
      · exact hlt

theorem minElement_spec (n : Nat) (g : Nat → SeamValue) (hn : 1 ≤ n) :
    FirstMin g n (minElement (rowOf n g)) := by
  unfold minElement
  rw [length_rowOf]
  apply minElementFrom_spec n g (n - 1) 1 0 (by omega) (by omega)
  · intro j hj
    have : j = 0 := by omega
    subst this
    exact le_refl _
  · intro j hj
    omega

theorem backtrack_tab (layers n m : Nat) (f : Nat → Nat → SeamValue) (hn : n < 2 ^ 32)
    (hpred : ∀ r x, 1 ≤ r → r < layers → x < n → ∃ c : Nat, (f r x).prev = (c : Int) ∧ c < n)
    (h : Nat) : ∀ (prev : Int) (mp : List Nat), h < layers → Follows f layers n m h mp →
      (∃ c, mp[h]? = some c ∧ c < n ∧ prev = (f h c).prev) →
      ∃ s, backtrack (tab layers n f) h prev mp = some s ∧ Follows f layers n m 0 s := by
  induction h with
  | zero =>
    intro prev mp _ hf _
    exact ⟨mp, rfl, hf⟩
  | succ k ih =>
    intro prev mp hk hf hc
    obtain ⟨c, hmc, hcn, hprev⟩ := hc
    obtain ⟨c', hc', hc'n⟩ := hpred (k + 1) c (by omega) hk hcn
    obtain ⟨hlen, hlast, hlink⟩ := hf
    have hp : prev = (c' : Int) := by rw [hprev, hc']
    subst hp
    have hk' : k < mp.length := by omega
    rw [backtrack, if_pos hk', if_pos (Int.natCast_nonneg c'), getElem?_tab f (by omega : k < layers)]
    simp only [Int.toNat_ofNat, getElem?_rowOf_lt (f k) hc'n]
    rw [toU32_natCast c' (by omega)]
    apply ih (f k c').prev (mp.set k c') (by omega)
    · refine ⟨by simpa using hlen, ?_, ?_⟩
      · rw [List.getElem?_set_ne (by omega)]
        exact hlast
      · intro r hr hrl
        rcases Nat.eq_or_lt_of_le (Nat.succ_le_of_lt hr) with e | e
        · have e' : r = k + 1 := by omega
          subst e'
          refine ⟨c', c, ?_, ?_, hcn, by rw [hc']⟩
          · simp only [Nat.add_sub_cancel]
            rw [List.getElem?_set_self hk']
          · rw [List.getElem?_set_ne (by omega)]
            exact hmc
        · obtain ⟨a, b, ha, hb, hbn, hab⟩ := hlink r (by omega) hrl
          refine ⟨a, b, ?_, ?_, hbn, hab⟩
          · rw [List.getElem?_set_ne (by omega)]
            exact ha
          · rw [List.getElem?_set_ne (by omega)]
            exact hb
    · exact ⟨c', by rw [List.getElem?_set_self hk'], hc'n, rfl⟩

theorem minPath_tab (layers n : Nat) (f : Nat → Nat → SeamValue) (hl1 : 1 ≤ layers)
    (hl : layers < 2 ^ 32) (hn1 : 1 ≤ n) (hn : n < 2 ^ 32)
    (hpred : ∀ r x, 1 ≤ r → r < layers → x < n → ∃ c : Nat, (f r x).prev = (c : Int) ∧ c < n) :
    ∃ s, minPath (tab layers n f) layers = some s ∧
      Follows f layers n (minElement (rowOf n (f (layers - 1)))) 0 s ∧
      FirstMin (f (layers - 1)) n (minElement (rowOf n (f (layers - 1)))) := by
  have hmin := minElement_spec n (f (layers - 1)) hn1
  have hidx : (layers + 2 ^ 32 - 1) % 2 ^ 32 = layers - 1 := by omega
  have hne : ¬ (List.replicate layers 0 = ([] : List Nat)) := by
    intro h
    have := congrArg List.length h
    simp at this
    omega
  unfold minPath
  rw [hidx, getElem?_tab f (by omega : layers - 1 < layers)]
  simp only [Option.bind_eq_bind, Option.some_bind, getElem?_rowOf_lt (f (layers - 1)) hmin.1,
    hne, if_false, List.length_replicate]
  obtain ⟨s, hs, hfol⟩ := backtrack_tab layers n (minElement (rowOf n (f (layers - 1)))) f hn hpred
    (layers - 1) (f (layers - 1) (minElement (rowOf n (f (layers - 1))))).prev
    ((List.replicate layers 0).set (layers - 1) (minElement (rowOf n (f (layers - 1)))))
    (by omega)
    ⟨by simp, by rw [List.getElem?_set_self (by simp; omega)], fun r hr hrl => by omega⟩
    ⟨_, by rw [List.getElem?_set_self (by simp; omega)], hmin.1, rfl⟩
  exact ⟨s, hs, hfol, hmin⟩

theorem dp_succ_best (A : Arith) (n : Nat) (delta : Nat → Nat → Nat → Nat) (h x : Nat)
    (hx : x < n) :
    ∃ c : Nat, (dp A n delta (h + 1) x).prev = (c : Int) ∧
      (dp A n delta (h + 1) x).cost = A.add (dp A n delta h c).cost (delta (h + 1) x c) ∧
      c < n ∧ x ≤ c + 1 ∧ c ≤ x + 1 ∧
      ∀ c' : Nat, c' < n → x ≤ c' + 1 → c' ≤ x + 1 →
        A.add (dp A n delta h c).cost (delta (h + 1) x c)
          ≤ A.add (dp A n delta h c').cost (delta (h + 1) x c') ∧
        (A.add (dp A n delta h c').cost (delta (h + 1) x c')
          = A.add (dp A n delta h c).cost (delta (h + 1) x c) → c ≤ c') :=
  cellFrom_best A n x (fun c => (dp A n delta h c).cost) (delta (h + 1) x) hx

theorem dp_pred (A : Arith) (n : Nat) (delta : Nat → Nat → Nat → Nat) (layers : Nat) :
    ∀ r x, 1 ≤ r → r < layers → x < n →
      ∃ c : Nat, (dp A n delta r x).prev = (c : Int) ∧ c < n := by
  intro r x hr _ hx
  obtain ⟨k, rfl⟩ : ∃ k, r = k + 1 := ⟨r - 1, by omega⟩
  obtain ⟨c, hc, _, hcn, _⟩ := dp_succ_best A n delta k x hx
  exact ⟨c, hc, hcn⟩

theorem getD_of_getElem? {s : List Nat} {i a : Nat} (h : s[i]? = some a) : s.getD i 0 = a := by
  simp [List.getD, h]

theorem follows_isSeam (A : Arith) (n : Nat) (delta : Nat → Nat → Nat → Nat) (layers m : Nat)
    (s : List Nat) (hm : m < n) (hf : Follows (dp A n delta) layers n m 0 s) :
    IsSeam s layers n := by
  obtain ⟨hlen, hlast, hlink⟩ := hf
  have hstep : ∀ i, i + 1 < layers → s.getD i 0 < n ∧
      s.getD i 0 ≤ s.getD (i + 1) 0 + 1 ∧ s.getD (i + 1) 0 ≤ s.getD i 0 + 1 := by
    intro i hi
    obtain ⟨a, b, ha, hb, hbn, hab⟩ := hlink (i + 1) (by omega) hi
    simp only [Nat.add_sub_cancel] at ha
    obtain ⟨c, hc, _, hcn, h1, h2, _⟩ := dp_succ_best A n delta i b hbn
    rw [getD_of_getElem? ha, getD_of_getElem? hb]
    have : a = c := by
      have : (a : Int) = (c : Int) := by rw [hab, hc]
      exact_mod_cast this
    subst this
    exact ⟨hcn, by omega, by omega⟩
  refine ⟨hlen, ?_, fun i hi => (hstep i hi).2⟩
  intro i hi
  rcases Nat.lt_or_ge (i + 1) layers with h | h
  · exact (hstep i h).1
  · have : i = layers - 1 := by omega
    subst this
    rw [getD_of_getElem? hlast]
    exact hm

theorem wf_bounds {pixels : List RGB} {width height : Nat} (hwf : WellFormed pixels width height) :
    width < 2 ^ 31 ∧ height < 2 ^ 31 := by
  obtain ⟨hw, hh, _, hsz⟩ := hwf
  constructor
  · calc width = width * 1 := (Nat.mul_one _).symm
      _ ≤ width * height := Nat.mul_le_mul_left _ hh
      _ < 2 ^ 31 := hsz
  · calc height = 1 * height := (Nat.one_mul _).symm
      _ ≤ width * height := Nat.mul_le_mul_right _ hw
      _ < 2 ^ 31 := hsz

theorem getVerticalSeam_follows (A : Arith) (pixels : List RGB) (width height : Nat)
    (hwf : WellFormed pixels width height) :
    ∃ s, getVerticalSeam A pixels width height = some s ∧
      Follows (dp A width (vDelta pixels width)) height width
        (minElement (rowOf width (dp A width (vDelta pixels width) (height - 1)))) 0 s ∧
      FirstMin (dp A width (vDelta pixels width) (height - 1)) width
        (minElement (rowOf width (dp A width (vDelta pixels width) (height - 1)))) := by
  have hb := wf_bounds hwf
  unfold getVerticalSeam
  rw [getVerticalSeam_paths_eq A pixels width height hwf, Option.some_bind]
  exact minPath_tab height width _ hwf.2.1 (by omega) hwf.1 (by omega)
    (dp_pred A width (vDelta pixels width) height)

theorem getHorizontalSeam_follows (A : Arith) (pixels : List RGB) (width height : Nat)
    (hwf : WellFormed pixels width height) :
    ∃ s, getHorizontalSeam A pixels width height = some s ∧
      Follows (dp A height (hDelta pixels width)) width height
        (minElement (rowOf height (dp A height (hDelta pixels width) (width - 1)))) 0 s ∧
      FirstMin (dp A height (hDelta pixels width) (width - 1)) height
        (minElement (rowOf height (dp A height (hDelta pixels width) (width - 1)))) := by
  have hb := wf_bounds hwf
  unfold getHorizontalSeam
  rw [getHorizontalSeam_paths_eq A pixels width height hwf, Option.some_bind]
  exact minPath_tab width height _ hwf.1 (by omega) hwf.2.1 (by omega)
    (dp_pred A height (hDelta pixels width) width)

theorem getVerticalSeam_isSeam (A : Arith) (pixels : List RGB) (width height : Nat)
    (hwf : WellFormed pixels width height) :
    ∃ s, getVerticalSeam A pixels width height = some s ∧ IsSeam s height width := by
  obtain ⟨s, hs, hf, hm⟩ := getVerticalSeam_follows A pixels width height hwf
  exact ⟨s, hs, follows_isSeam A width _ height _ s hm.1 hf⟩

theorem getHorizontalSeam_isSeam (A : Arith) (pixels : List RGB) (width height : Nat)
    (hwf : WellFormed pixels width height) :
    ∃ s, getHorizontalSeam A pixels width height = some s ∧ IsSeam s width height := by
  obtain ⟨s, hs, hf, hm⟩ := getHorizontalSeam_follows A pixels width height hwf
  exact ⟨s, hs, follows_isSeam A height _ width _ s hm.1 hf⟩

/-- C2: on a well-formed buffer `getVerticalSeam` returns a seam with one entry
per row, every entry a column below `width`, consecutive entries at most one
apart; `getHorizontalSeam` returns one with one entry per column, every entry a
row below `height`, consecutive entries at most one apart. -/
theorem seam_adjacency (A : Arith) (pixels : List RGB) (width height : Nat)
    (hwf : WellFormed pixels width height) :
    (∃ s, getVerticalSeam A pixels width height = some s ∧ IsSeam s height width) ∧
      ∃ s, getHorizontalSeam A pixels width height = some s ∧ IsSeam s width height := by
  constructor
  · obtain ⟨s, hs, hf, hm⟩ := getVerticalSeam_follows A pixels width height hwf
    exact ⟨s, hs, follows_isSeam A width _ height _ s hm.1 hf⟩
  · obtain ⟨s, hs, hf, hm⟩ := getHorizontalSeam_follows A pixels width height hwf
    exact ⟨s, hs, follows_isSeam A height _ width _ s hm.1 hf⟩

theorem dp_cost_le_costUpTo (n : Nat) (delta : Nat → Nat → Nat → Nat) (layers : Nat)
    (s : List Nat) (hs : IsSeam s layers n) (h : Nat) :
    h < layers → (dp Arith.exact n delta h (s.getD h 0)).cost ≤ costUpTo delta s h := by
  obtain ⟨_, hrange, hadj⟩ := hs
  induction h with
  | zero =>
    intro _
    simp [dp, costUpTo]
  | succ k ih =>
    intro hk
    obtain ⟨c, _, hcost, _, _, _, hbest⟩ :=
      dp_succ_best Arith.exact n delta k (s.getD (k + 1) 0) (hrange (k + 1) hk)
    have hk' := hadj k hk
    have h1 := (hbest (s.getD k 0) (hrange k (by omega)) hk'.2 hk'.1).1
    have h2 := ih (by omega)
    rw [hcost, costUpTo]
    simp only [Arith.add] at h1 ⊢
    omega

theorem dp_cost_eq_costUpTo (n : Nat) (delta : Nat → Nat → Nat → Nat) (layers m : Nat)
    (s : List Nat) (hf : Follows (dp Arith.exact n delta) layers n m 0 s) (h : Nat) :
    h < layers → (dp Arith.exact n delta h (s.getD h 0)).cost = costUpTo delta s h := by
  obtain ⟨_, _, hlink⟩ := hf
  induction h with
  | zero =>
    intro _
    simp [dp, costUpTo]
  | succ k ih =>
    intro hk
    obtain ⟨a, b, ha, hb, hbn, hab⟩ := hlink (k + 1) (by omega) hk
    simp only [Nat.add_sub_cancel] at ha
    obtain ⟨c, hc, hcost, _⟩ := dp_succ_best Arith.exact n delta k b hbn
    have hac : a = c := by
      have : (a : Int) = (c : Int) := by rw [hab, hc]
      exact_mod_cast this
    subst hac
    have h2 := ih (by omega)
    rw [getD_of_getElem? ha] at h2
    rw [costUpTo, getD_of_getElem? hb, getD_of_getElem? ha, hcost, ← h2]
    rfl

theorem sum_range_succ_map (g : Nat → Int) (k : Nat) :
    ((List.range (k + 1)).map g).sum = ((List.range k).map g).sum + g k := by
  rw [List.range_succ, List.map_append, List.sum_append]
  simp

theorem pathCost_eq_costUpTo (pixels : List RGB) (width : Nat) (s : List Nat) :
    pathCost pixels width s = ((costUpTo (vDelta pixels width) s (s.length - 1) : Nat) : Int) := by
  unfold pathCost
  generalize s.length - 1 = k
  induction k with
  | zero => simp [costUpTo]
  | succ k ih =>
    rw [sum_range_succ_map, ih, costUpTo]
    push_cast
    congr 1
    unfold vDelta
    rw [rgb_sub_cast]
    simp

theorem entry_tab (layers n : Nat) (f : Nat → Nat → SeamValue) (h x : Nat) (hh : h < layers)
    (hx : x < n) : entry (tab layers n f) h x = f h x := by
  unfold entry
  simp [List.getD, getElem?_tab f hh, getElem?_rowOf_lt (f h) hx]

theorem stdCopy_spec (src : List RGB) (first last : Nat) (dst : List RGB) (d : Nat)
    (h1 : first ≤ last) (h2 : last ≤ src.length) (h3 : d + (last - first) ≤ dst.length) :
    ∃ out, stdCopy src first last dst d = some out ∧ out.length = dst.length ∧
      ∀ k, out[k]? = if d ≤ k ∧ k < d + (last - first) then src[first + (k - d)]? else dst[k]? := by
  unfold stdCopy
  rw [if_pos ⟨h1, h2, h3⟩]
  refine ⟨_, rfl, ?_, ?_⟩
  · simp only [List.length_append, List.length_take, List.length_drop]
    omega
  · intro k
    by_cases hk1 : k < d
    · have hc : ¬ (d ≤ k ∧ k < d + (last - first)) := by omega
      rw [if_neg hc, List.getElem?_append_left (by simp; omega), List.getElem?_take_of_lt hk1]
    · have hlen : (List.take d dst).length = d := by simp; omega
      rw [List.getElem?_append_right (by omega), hlen]
      by_cases hk2 : k < d + (last - first)
      · have hc : d ≤ k ∧ k < d + (last - first) := by omega
        rw [if_pos hc, List.getElem?_append_left (by simp; omega),
          List.getElem?_take_of_lt (by omega), List.getElem?_drop]
      · have hc : ¬ (d ≤ k ∧ k < d + (last - first)) := by omega
        have hlen2 : (List.take (last - first) (List.drop first src)).length = last - first := by
          simp; omega
        rw [if_neg hc, List.getElem?_append_right (by omega), hlen2, List.getElem?_drop]
        congr 1
        omega

theorem mul_add_lt_mul {h H n j : Nat} (hh : h < H) (hj : j < n) : h * n + j < H * n := by
  calc h * n + j < h * n + n := by omega
    _ = (h + 1) * n := by ring
    _ ≤ H * n := Nat.mul_le_mul_right _ hh

theorem removeVerticalSeam_row_spec (seam : List Nat) (pixels : List RGB) (width height h : Nat)
    (hwf : WellFormed pixels width height) (hh : h < height) (s : Nat) (hs : seam[h]? = some s)
    (hsw : s < width) (np : List RGB) (hnp : np.length = height * (width - 1)) :
    ∃ out, removeVerticalSeam_row seam pixels width h np = some out ∧
      out.length = height * (width - 1) ∧
      (∀ j, j < width - 1 → out[h * (width - 1) + j]?
        = if j < s then pixels[h * width + j]? else pixels[h * width + j + 1]?) ∧
      (∀ k, k < h * (width - 1) → out[k]? = np[k]?) := by
  obtain ⟨hw1, hh1, hlen, hsz⟩ := hwf
  have hb : h * width + width ≤ width * height := by
    calc h * width + width = (h + 1) * width := by ring
      _ ≤ height * width := Nat.mul_le_mul_right _ hh
      _ = width * height := Nat.mul_comm _ _
  have hd : h * (width - 1) + (width - 1) ≤ height * (width - 1) := by
    calc h * (width - 1) + (width - 1) = (h + 1) * (width - 1) := by ring
      _ ≤ height * (width - 1) := Nat.mul_le_mul_right _ hh
  have hdb : h * (width - 1) ≤ h * width := Nat.mul_le_mul_left _ (by omega)
  have e1 : (h * width) % 2 ^ 32 = h * width := Nat.mod_eq_of_lt (by omega)
  have e2 : (width + 2 ^ 32 - 1) % 2 ^ 32 = width - 1 := by omega
  have e3 : (h * (width - 1)) % 2 ^ 32 = h * (width - 1) := Nat.mod_eq_of_lt (by omega)
  unfold removeVerticalSeam_row
  simp only [hs, Option.bind_eq_bind, Option.some_bind, e1, e2, e3]
  generalize h * width = b at hb hdb ⊢
  generalize h * (width - 1) = d at hd hdb ⊢
  obtain ⟨o1, ho1, hl1, hg1⟩ := stdCopy_spec pixels b (b + s) np d (by omega) (by omega) (by omega)
  rw [ho1, Option.some_bind]
  obtain ⟨o2, ho2, hl2, hg2⟩ := stdCopy_spec pixels (b + s + 1) (b + width) o1 (d + s)
    (by omega) (by omega) (by omega)
  refine ⟨o2, ho2, by omega, ?_, ?_⟩
  · intro j hj
    rw [hg2]
    by_cases hjs : j < s
    · have hc : ¬ (d + s ≤ d + j ∧ d + j < d + s + (b + width - (b + s + 1))) := by omega
      have hc1 : d ≤ d + j ∧ d + j < d + (b + s - b) := by omega
      rw [if_neg hc, hg1, if_pos hc1, if_pos hjs]
      have e : b + (d + j - d) = b + j := by omega
      rw [e]
    · have hc : d + s ≤ d + j ∧ d + j < d + s + (b + width - (b + s + 1)) := by omega
      rw [if_pos hc, if_neg hjs]
      have e : b + s + 1 + (d + j - (d + s)) = b + j + 1 := by omega
      rw [e]
  · intro k hk
    have hc : ¬ (d + s ≤ k ∧ k < d + s + (b + width - (b + s + 1))) := by omega
    have hc1 : ¬ (d ≤ k ∧ k < d + (b + s - b)) := by omega
    rw [hg2, if_neg hc, hg1, if_neg hc1]

theorem removeVerticalSeam_loop (seam : List Nat) (pixels : List RGB) (width height : Nat)
    (hwf : WellFormed pixels width height) (hlen : seam.length = height)
    (hseam : ∀ h, h < height → seam.getD h 0 < width) (count : Nat) :
    ∀ (start : Nat) (np : List RGB), start + count = height →
      np.length = height * (width - 1) →
      ∃ out, forLoop (removeVerticalSeam_row seam pixels width) start count np = some out ∧
        out.length = height * (width - 1) ∧
        (∀ h j, start ≤ h → h < height → j < width - 1 → out[h * (width - 1) + j]?
          = if j < seam.getD h 0 then pixels[h * width + j]? else pixels[h * width + j + 1]?) ∧
        (∀ k, k < start * (width - 1) → out[k]? = np[k]?) := by
  induction count with
  | zero =>
    intro start np hsc hnp
    exact ⟨np, rfl, hnp, fun h j h1 h2 _ => by omega, fun k _ => rfl⟩
  | succ count ih =>
    intro start np hsc hnp
    have hst : start < height := by omega
    have hsl : start < seam.length := by omega
    have hs : seam[start]? = some (seam.getD start 0) := by
      simp [List.getD, List.getElem?_eq_getElem hsl]
    obtain ⟨o1, ho1, hl1, hrow, hkeep⟩ := removeVerticalSeam_row_spec seam pixels width height
      start hwf hst _ hs (hseam start hst) np hnp
    obtain ⟨out, hout, hl, hrows, hkeep2⟩ := ih (start + 1) o1 (by omega) hl1
    refine ⟨out, ?_, hl, ?_, ?_⟩
    · rw [forLoop, ho1, Option.some_bind, hout]
    · intro h j h1 h2 hj
      rcases Nat.eq_or_lt_of_le h1 with e | e
      · subst e
        rw [hkeep2 _ (mul_add_lt_mul (Nat.lt_succ_self _) hj), hrow j hj]
      · exact hrows h j (by omega) h2 hj
    · intro k hk
      have : k < (start + 1) * (width - 1) := by
        calc k < start * (width - 1) := hk
          _ ≤ (start + 1) * (width - 1) := Nat.mul_le_mul_right _ (by omega)
      rw [hkeep2 k this, hkeep k hk]

theorem removeVerticalSeam_length (seam : List Nat) (pixels : List RGB) (width height : Nat)
    (hwf : WellFormed pixels width height) (hlen : seam.length = height)
    (hseam : ∀ h, h < height → seam.getD h 0 < width) :
    ∃ out, removeVerticalSeam seam pixels width height = some out ∧
      out.length = height * (width - 1) := by
  have hb := wf_bounds hwf
  have hw1 := hwf.1
  have hle : height * (width - 1) ≤ width * height := by
    rw [Nat.mul_comm width height]
    exact Nat.mul_le_mul_left _ (by omega)
  have hsz := hwf.2.2.2
  have e2 : (width + 2 ^ 32 - 1) % 2 ^ 32 = width - 1 := by omega
  have e3 : (height * (width - 1)) % 2 ^ 32 = height * (width - 1) := Nat.mod_eq_of_lt (by omega)
  unfold removeVerticalSeam
  rw [e2, e3]
  obtain ⟨out, hout, hl, _, _⟩ := removeVerticalSeam_loop seam pixels width height hwf hlen
    hseam height 0 (List.replicate (height * (width - 1)) RGB.zero) (by omega) (by simp)
  exact ⟨out, hout, hl⟩

/-- C3: on a well-formed buffer and a seam with one in-range column per row,
`removeVerticalSeam` returns a buffer of `height * (width - 1)` pixels whose
row `h` is row `h` of the input without the pixel at column `seam[h]`, the
other pixels in their order. -/
theorem removeVerticalSeam_spec (seam : List Nat) (pixels : List RGB) (width height : Nat)
    (hwf : WellFormed pixels width height) (hlen : seam.length = height)
    (hseam : ∀ h, h < height → seam.getD h 0 < width) :
    ∃ out, removeVerticalSeam seam pixels width height = some out ∧
      out.length = height * (width - 1) ∧
      ∀ h j, h < height → j < width - 1 → out[h * (width - 1) + j]?
        = if j < seam.getD h 0 then pixels[h * width + j]? else pixels[h * width + j + 1]? := by
  have hb := wf_bounds hwf
  have hw1 := hwf.1
  have hle : height * (width - 1) ≤ width * height := by
    rw [Nat.mul_comm width height]
    exact Nat.mul_le_mul_left _ (by omega)
  have hsz := hwf.2.2.2
  have e2 : (width + 2 ^ 32 - 1) % 2 ^ 32 = width - 1 := by omega
  have e3 : (height * (width - 1)) % 2 ^ 32 = height * (width - 1) := Nat.mod_eq_of_lt (by omega)
  unfold removeVerticalSeam
  rw [e2, e3]
  obtain ⟨out, hout, hl, hrows, _⟩ := removeVerticalSeam_loop seam pixels width height hwf hlen
    hseam height 0 (List.replicate (height * (width - 1)) RGB.zero) (by omega) (by simp)
  exact ⟨out, hout, hl, fun h j hh hj => hrows h j (Nat.zero_le _) hh hj⟩

theorem removeVerticalSeam_spec_witness :
    WellFormed scenario 3 2 ∧
      removeVerticalSeam [0, 0] scenario 3 2
        = some [px 10 10 10, px 0 0 0, px 0 0 0, px 0 0 0] ∧
      ∃ out, removeVerticalSeam [0, 0] scenario 3 2 = some out ∧
        out.length = 2 * (3 - 1) ∧
        ∀ h j, h < 2 → j < 3 - 1 → out[h * (3 - 1) + j]?
          = if j < [0, 0].getD h 0 then scenario[h * 3 + j]? else scenario[h * 3 + j + 1]? :=
  ⟨by unfold WellFormed; decide, by decide,
    removeVerticalSeam_spec [0, 0] scenario 3 2 (by unfold WellFormed; decide) (by decide)
      (by decide)⟩

theorem mul_add_mod_lt {i n w : Nat} (hw : w < n) : (i * n + w) % n = w := by
  rw [Nat.add_comm, Nat.add_mul_mod_self_right, Nat.mod_eq_of_lt hw]

theorem mul_add_inj {i i' n w : Nat} (h : i * n + w = i' * n + w) (hn : 0 < n) : i = i' := by
  have : i * n = i' * n := by omega
  exact Nat.eq_of_mul_eq_mul_right hn this

theorem removeHorizontalSeam_cell_eq (seam : List Nat) (pixels : List RGB) (width height w s h : Nat)
    (hwf : WellFormed pixels width height) (hw : w < width) (hs : seam[w]? = some s)
    (hh : h < height) (st : List RGB × Nat) :
    removeHorizontalSeam_cell seam pixels width w h st
      = if h = s then some st
        else if st.2 < st.1.length then
          some (st.1.set st.2 (pixels.getD (h * width + w) RGB.zero), st.2 + width)
        else none := by
  have hpix : h * width + w < pixels.length := by
    rw [hwf.2.2.1]
    exact cell_index_lt hh hw
  have hmod : (h * width + w) % 2 ^ 32 = h * width + w := by
    apply Nat.mod_eq_of_lt
    have := hwf.2.2.1
    have := hwf.2.2.2
    omega
  unfold removeHorizontalSeam_cell
  simp only [hs, Option.bind_eq_bind, Option.some_bind, hmod, getElem?_pixels _ _ hpix,
    Option.pure_def]
  by_cases hhs : h = s
  · simp [hhs]
  · simp [hhs]

theorem removeHorizontalSeam_inner (seam : List Nat) (pixels : List RGB) (width height w s : Nat)
    (hwf : WellFormed pixels width height) (hw : w < width) (hs : seam[w]? = some s)
    (hsh : s < height) (np0 : List RGB) (count : Nat) :
    ∀ (h : Nat) (st : List RGB × Nat), h + count = height →
      st.1.length = (height - 1) * width →
      st.2 = w + (if h ≤ s then h else h - 1) * width →
      (∀ i, i < (if h ≤ s then h else h - 1) → st.1[i * width + w]?
        = if i < s then pixels[i * width + w]? else pixels[(i + 1) * width + w]?) →
      (∀ k, k % width ≠ w → st.1[k]? = np0[k]?) →
      ∃ out, forLoop (removeHorizontalSeam_cell seam pixels width w) h count st = some out ∧
        out.1.length = (height - 1) * width ∧
        (∀ i, i < height - 1 → out.1[i * width + w]?
          = if i < s then pixels[i * width + w]? else pixels[(i + 1) * width + w]?) ∧
        (∀ k, k % width ≠ w → out.1[k]? = np0[k]?) := by
  induction count with
  | zero =>
    intro h st hc hl hins hwr hkeep
    have hh : h = height := by omega
    subst hh
    have hcnt : (if h ≤ s then h else h - 1) = h - 1 := by
      rw [if_neg (by omega)]
    rw [hcnt] at hwr
    exact ⟨st, rfl, hl, hwr, hkeep⟩
  | succ count ih =>
    intro h st hc hl hins hwr hkeep
    have hh : h < height := by omega
    have hpix : h * width + w < pixels.length := by
      rw [hwf.2.2.1]
      exact cell_index_lt hh hw
    have hget : pixels[h * width + w]? = some (pixels.getD (h * width + w) RGB.zero) :=
      getElem?_pixels _ _ hpix
    rw [forLoop, removeHorizontalSeam_cell_eq seam pixels width height w s h hwf hw hs hh]
    by_cases hhs : h = s
    · subst hhs
      rw [if_pos rfl, Option.some_bind]
      apply ih (h + 1) st (by omega) hl
      · rw [hins, if_pos (le_refl _), if_neg (by omega)]
        simp
      · intro i hi
        rw [if_neg (by omega)] at hi
        apply hwr
        rw [if_pos (le_refl _)]
        omega
      · exact hkeep
    · have hcnt : (if h ≤ s then h else h - 1) < height - 1 := by
        split <;> omega
      have hcnt' : (if h + 1 ≤ s then h + 1 else h + 1 - 1)
          = (if h ≤ s then h else h - 1) + 1 := by
        split <;> split <;> omega
      have hin : st.2 < st.1.length := by
        rw [hins, hl, Nat.add_comm]
        exact mul_add_lt_mul hcnt hw
      rw [if_neg hhs, if_pos hin, Option.some_bind]
      apply ih (h + 1) _ (by omega)
      · simpa using hl
      · simp only [hcnt', hins]
        ring
      · intro i hi
        rw [hcnt'] at hi
        simp only
        rcases Nat.eq_or_lt_of_le (Nat.le_of_lt_succ hi) with e | e
        · have hidx : st.2 = i * width + w := by rw [hins, e]; ring
          rw [hidx, List.getElem?_set_self (by rw [← hidx]; exact hin)]
          by_cases hle : h ≤ s
          · rw [if_pos hle] at e
            subst e
            rw [if_pos (by omega), hget]
          · rw [if_neg hle] at e
            have e' : i + 1 = h := by omega
            rw [if_neg (by omega), e', hget]
        · have hne : st.2 ≠ i * width + w := by
            rw [hins, Nat.add_comm]
            intro heq
            have := mul_add_inj heq (by omega)
            omega
          rw [List.getElem?_set_ne hne]
          exact hwr i e
      · intro k hk
        have hne : st.2 ≠ k := by
          intro heq
          apply hk
          rw [← heq, hins, Nat.add_comm]
          exact mul_add_mod_lt hw
        simp only
        rw [List.getElem?_set_ne hne]
        exact hkeep k hk

theorem removeHorizontalSeam_col_spec (seam : List Nat) (pixels : List RGB) (width height w s : Nat)
    (hwf : WellFormed pixels width height) (hw : w < width) (hs : seam[w]? = some s)
    (hsh : s < height) (np : List RGB) (hnp : np.length = (height - 1) * width) :
    ∃ out, removeHorizontalSeam_col seam pixels width height w np = some out ∧
      out.length = (height - 1) * width ∧
      (∀ i, i < height - 1 → out[i * width + w]?
        = if i < s then pixels[i * width + w]? else pixels[(i + 1) * width + w]?) ∧
      (∀ k, k % width ≠ w → out[k]? = np[k]?) := by
  obtain ⟨out, hout, hl, hwr, hkeep⟩ := removeHorizontalSeam_inner seam pixels width height w s
    hwf hw hs hsh np height 0 (np, w) (by omega) hnp (by simp) (fun i hi => by simp at hi)
    (fun k _ => rfl)
  refine ⟨out.1, ?_, hl, hwr, hkeep⟩
  unfold removeHorizontalSeam_col
  rw [hout]
  rfl

theorem removeHorizontalSeam_loop (seam : List Nat) (pixels : List RGB) (width height : Nat)
    (hwf : WellFormed pixels width height) (hlen : seam.length = width)
    (hseam : ∀ w, w < width → seam.getD w 0 < height) (count : Nat) :
    ∀ (start : Nat) (np : List RGB), start + count = width →
      np.length = (height - 1) * width →
      ∃ out, forLoop (removeHorizontalSeam_col seam pixels width height) start count np = some out ∧
        out.length = (height - 1) * width ∧
        (∀ w i, start ≤ w → w < width → i < height - 1 → out[i * width + w]?
          = if i < seam.getD w 0 then pixels[i * width + w]? else pixels[(i + 1) * width + w]?) ∧
        (∀ k, k % width < start → out[k]? = np[k]?) := by
  induction count with
  | zero =>
    intro start np hsc hnp
    exact ⟨np, rfl, hnp, fun w i h1 h2 _ => by omega, fun k _ => rfl⟩
  | succ count ih =>
    intro start np hsc hnp
    have hst : start < width := by omega
    have hsl : start < seam.length := by omega
    have hs : seam[start]? = some (seam.getD start 0) := by
      simp [List.getD, List.getElem?_eq_getElem hsl]
    obtain ⟨o1, ho1, hl1, hcol, hkeep⟩ := removeHorizontalSeam_col_spec seam pixels width height
      start _ hwf hst hs (hseam start hst) np hnp
    obtain ⟨out, hout, hl, hcols, hkeep2⟩ := ih (start + 1) o1 (by omega) hl1
    refine ⟨out, ?_, hl, ?_, ?_⟩
    · rw [forLoop, ho1, Option.some_bind, hout]
    · intro w i h1 h2 hi
      rcases Nat.eq_or_lt_of_le h1 with e | e
      · subst e
        rw [hkeep2 _ (by rw [mul_add_mod_lt hst]; omega), hcol i hi]
      · exact hcols w i (by omega) h2 hi
    · intro k hk
      rw [hkeep2 k (by omega), hkeep k (by omega)]

theorem removeHorizontalSeam_length (seam : List Nat) (pixels : List RGB) (width height : Nat)
    (hwf : WellFormed pixels width height) (hlen : seam.length = width)
    (hseam : ∀ w, w < width → seam.getD w 0 < height) :
    ∃ out, removeHorizontalSeam seam pixels width height = some out ∧
      out.length = (height - 1) * width := by
  have hb := wf_bounds hwf
  have hh1 := hwf.2.1
  have hle : (height - 1) * width ≤ width * height := by
    rw [Nat.mul_comm width height]
    exact Nat.mul_le_mul_right _ (by omega)
  have hsz := hwf.2.2.2
  have e2 : (height + 2 ^ 32 - 1) % 2 ^ 32 = height - 1 := by omega
  have e3 : ((height - 1) * width) % 2 ^ 32 = (height - 1) * width := Nat.mod_eq_of_lt (by omega)
  unfold removeHorizontalSeam
  rw [e2, e3]
  obtain ⟨out, hout, hl, _, _⟩ := removeHorizontalSeam_loop seam pixels width height hwf hlen
    hseam width 0 (List.replicate ((height - 1) * width) RGB.zero) (by omega) (by simp)
  exact ⟨out, hout, hl⟩

/-- C4: on a well-formed buffer and a seam with one in-range row per column,
`removeHorizontalSeam` returns a buffer of `(height - 1) * width` pixels whose
column `w` is column `w` of the input without the pixel at row `seam[w]`, the
other pixels in their vertical order. -/
theorem removeHorizontalSeam_spec (seam : List Nat) (pixels : List RGB) (width height : Nat)
    (hwf : WellFormed pixels width height) (hlen : seam.length = width)
    (hseam : ∀ w, w < width → seam.getD w 0 < height) :
    ∃ out, removeHorizontalSeam seam pixels width height = some out ∧
      out.length = (height - 1) * width ∧
      ∀ w i, w < width → i < height - 1 → out[i * width + w]?
        = if i < seam.getD w 0 then pixels[i * width + w]? else pixels[(i + 1) * width + w]? := by
  have hb := wf_bounds hwf
  have hh1 := hwf.2.1
  have hle : (height - 1) * width ≤ width * height := by
    rw [Nat.mul_comm width height]
    exact Nat.mul_le_mul_right _ (by omega)
  have hsz := hwf.2.2.2
  have e2 : (height + 2 ^ 32 - 1) % 2 ^ 32 = height - 1 := by omega
  have e3 : ((height - 1) * width) % 2 ^ 32 = (height - 1) * width := Nat.mod_eq_of_lt (by omega)
  unfold removeHorizontalSeam
  rw [e2, e3]
  obtain ⟨out, hout, hl, hcols, _⟩ := removeHorizontalSeam_loop seam pixels width height hwf hlen
    hseam width 0 (List.replicate ((height - 1) * width) RGB.zero) (by omega) (by simp)
  exact ⟨out, hout, hl, fun w i hw hi => hcols w i (Nat.zero_le _) hw hi⟩

theorem removeHorizontalSeam_spec_witness :
    WellFormed scenario 3 2 ∧
      removeHorizontalSeam [0, 1, 0] scenario 3 2 = some [px 0 0 0, px 10 10 10, px 0 0 0] ∧
      ∃ out, removeHorizontalSeam [0, 1, 0] scenario 3 2 = some out ∧
        out.length = (2 - 1) * 3 ∧
        ∀ w i, w < 3 → i < 2 - 1 → out[i * 3 + w]?
          = if i < [0, 1, 0].getD w 0 then scenario[i * 3 + w]? else scenario[(i + 1) * 3 + w]? :=
  ⟨by unfold WellFormed; decide, by decide,
    removeHorizontalSeam_spec [0, 1, 0] scenario 3 2 (by unfold WellFormed; decide) (by decide)
      (by decide)⟩

theorem seam_adjacency_witness :
    WellFormed scenario 3 2 ∧
      (∃ s, getVerticalSeam Arith.u32 scenario 3 2 = some s ∧ IsSeam s 2 3) ∧
      ∃ s, getHorizontalSeam Arith.u32 scenario 3 2 = some s ∧ IsSeam s 3 2 :=
  ⟨by unfold WellFormed; decide,
    seam_adjacency Arith.u32 scenario 3 2 (by unfold WellFormed; decide)⟩

theorem dp_congr (A : Arith) (n layers : Nat) (delta delta' : Nat → Nat → Nat → Nat)
    (hd : ∀ r x c, 1 ≤ r → r < layers → x < n → c < n → delta r x c = delta' r x c) (r : Nat) :
    r < layers → ∀ x, x < n → dp A n delta r x = dp A n delta' r x := by
  induction r with
  | zero =>
    intro _ x _
    rfl
  | succ k ih =>
    intro hk x hx
    simp only [dp]
    exact cellFrom_congr A n x _ _ _ _ (fun c hc => by rw [ih (by omega) c hc])
      (fun c hc => hd (k + 1) x c (by omega) hk hx hc) _

/-- C9: `getHorizontalSeam` is `getVerticalSeam` on the transposed buffer: for
a well-formed `width` by `height` buffer `P` and the buffer `T` with
`T[w * height + y] = P[y * width + w]`, both calls return the same seam. -/
theorem getHorizontalSeam_transpose (A : Arith) (P T : List RGB) (width height : Nat)
    (hwf : WellFormed P width height) (hlen : T.length = height * width)
    (hT : ∀ w, w < width → ∀ y, y < height → T[w * height + y]? = P[y * width + w]?) :
    ∃ s, getHorizontalSeam A P width height = some s ∧
      getVerticalSeam A T height width = some s := by
  have hwfT : WellFormed T height width := by
    obtain ⟨h1, h2, h3, h4⟩ := hwf
    exact ⟨h2, h1, hlen, by rw [Nat.mul_comm]; exact h4⟩
  have hpix : ∀ w y, w < width → y < height → pixelAt T height w y = pixelAt P width y w := by
    intro w y hw hy
    unfold pixelAt
    simp only [List.getD_eq_getElem?_getD, hT w hw y hy]
  have hdelta : ∀ r x c, 1 ≤ r → r < width → x < height → c < height →
      vDelta T height r x c = hDelta P width r x c := by
    intro r x c h1 hr hx hc
    unfold vDelta hDelta
    rw [hpix r x hr hx, hpix (r - 1) c (by omega) hc]
  have htab : tab width height (dp A height (vDelta T height))
      = tab width height (dp A height (hDelta P width)) :=
    tab_congr fun r x hr hx => dp_congr A height width _ _ hdelta r hr x hx
  obtain ⟨s, hs, _⟩ := getHorizontalSeam_follows A P width height hwf
  refine ⟨s, hs, ?_⟩
  unfold getVerticalSeam
  unfold getHorizontalSeam at hs
  rw [getHorizontalSeam_paths_eq A P width height hwf] at hs
  rw [getVerticalSeam_paths_eq A T height width hwfT, htab]
  exact hs

theorem getHorizontalSeam_transpose_witness :
    WellFormed scenario 3 2 ∧
      ∃ s, getHorizontalSeam Arith.u32 scenario 3 2 = some s ∧
        getVerticalSeam Arith.u32
          [px 0 0 0, px 0 0 0, px 10 10 10, px 0 0 0, px 0 0 0, px 0 0 0] 2 3 = some s :=
  ⟨by unfold WellFormed; decide,
    getHorizontalSeam_transpose Arith.u32 scenario
      [px 0 0 0, px 0 0 0, px 10 10 10, px 0 0 0, px 0 0 0, px 0 0 0] 3 2
      (by unfold WellFormed; decide) (by decide) (by decide)⟩

theorem getD_lt_of_isSeam {s : List Nat} {layers n : Nat} (hs : IsSeam s layers n) :
    ∀ i, i < layers → s.getD i 0 < n := hs.2.1

theorem vertical_step_wf (A : Arith) (p : List RGB) (w h : Nat) (hwf : WellFormed p w h)
    (hw : 2 ≤ w) :
    ∃ out, ((getVerticalSeam A p w h).bind fun seam => removeVerticalSeam seam p w h) = some out ∧
      WellFormed out (w - 1) h := by
  obtain ⟨seam, hseam, his⟩ := getVerticalSeam_isSeam A p w h hwf
  obtain ⟨out, hout, hl⟩ := removeVerticalSeam_length seam p w h hwf his.1 his.2.1
  refine ⟨out, by rw [hseam, Option.some_bind, hout], by omega, hwf.2.1, ?_, ?_⟩
  · rw [hl, Nat.mul_comm]
  · calc (w - 1) * h ≤ w * h := Nat.mul_le_mul_right _ (by omega)
      _ < 2 ^ 31 := hwf.2.2.2

theorem horizontal_step_wf (A : Arith) (p : List RGB) (w h : Nat) (hwf : WellFormed p w h)
    (hh : 2 ≤ h) :
    ∃ out, ((getHorizontalSeam A p w h).bind fun seam => removeHorizontalSeam seam p w h)
        = some out ∧ WellFormed out w (h - 1) := by
  obtain ⟨seam, hseam, his⟩ := getHorizontalSeam_isSeam A p w h hwf
  obtain ⟨out, hout, hl⟩ := removeHorizontalSeam_length seam p w h hwf his.1 his.2.1
  refine ⟨out, by rw [hseam, Option.some_bind, hout], hwf.1, by omega, ?_, ?_⟩
  · rw [hl, Nat.mul_comm]
  · calc w * (h - 1) ≤ w * h := Nat.mul_le_mul_left _ (by omega)
      _ < 2 ^ 31 := hwf.2.2.2

theorem vertical_loop (A : Arith) (lw lh : Nat) (hlw : lw < 2 ^ 32) (k : Nat) :
    ∀ (i : Nat) (p : List RGB), i + k + 1 ≤ lw → WellFormed p (lw - i) lh →
      ∃ out, forLoop (carveVertical A lw lh) i k p = some out ∧
        verticalCarves A k p (lw - i) lh = some out ∧ WellFormed out (lw - i - k) lh := by
  induction k with
  | zero =>
    intro i p _ hwf
    exact ⟨p, rfl, rfl, hwf⟩
  | succ k ih =>
    intro i p hik hwf
    have e : (lw + 2 ^ 32 - i) % 2 ^ 32 = lw - i := by omega
    obtain ⟨q, hq, hwfq⟩ := vertical_step_wf A p (lw - i) lh hwf (by omega)
    have e2 : lw - i - 1 = lw - (i + 1) := by omega
    rw [e2] at hwfq
    obtain ⟨out, h1, h2, h3⟩ := ih (i + 1) q (by omega) hwfq
    refine ⟨out, ?_, ?_, ?_⟩
    · have hstep : carveVertical A lw lh i p = some q := by
        unfold carveVertical
        rw [e]
        exact hq
      rw [forLoop, hstep, Option.some_bind, h1]
    · rw [verticalCarves, hq, Option.some_bind, e2, h2]
    · have e3 : lw - i - (k + 1) = lw - (i + 1) - k := by omega
      rw [e3]
      exact h3

theorem horizontal_loop (A : Arith) (cw lh : Nat) (hlh : lh < 2 ^ 32) (k : Nat) :
    ∀ (i : Nat) (p : List RGB), i + k + 1 ≤ lh → WellFormed p cw (lh - i) →
      ∃ out, forLoop (carveHorizontal A cw lh) i k p = some out ∧
        horizontalCarves A k p cw (lh - i) = some out ∧ WellFormed out cw (lh - i - k) := by
  induction k with
  | zero =>
    intro i p _ hwf
    exact ⟨p, rfl, rfl, hwf⟩
  | succ k ih =>
    intro i p hik hwf
    have e : (lh + 2 ^ 32 - i) % 2 ^ 32 = lh - i := by omega
    obtain ⟨q, hq, hwfq⟩ := horizontal_step_wf A p cw (lh - i) hwf (by omega)
    have e2 : lh - i - 1 = lh - (i + 1) := by omega
    rw [e2] at hwfq
    obtain ⟨out, h1, h2, h3⟩ := ih (i + 1) q (by omega) hwfq
    refine ⟨out, ?_, ?_, ?_⟩
    · have hstep : carveHorizontal A cw lh i p = some q := by
        unfold carveHorizontal
        rw [e]
        exact hq
      rw [forLoop, hstep, Option.some_bind, h1]
    · rw [horizontalCarves, hq, Option.some_bind, e2, h2]
    · have e3 : lh - i - (k + 1) = lh - (i + 1) - k := by omega
      rw [e3]
      exact h3

theorem resize_core (A : Arith) (p : List RGB) (lw lh cw ch : Nat) (hwf : WellFormed p lw lh)
    (h1 : 1 ≤ cw) (h2 : cw ≤ lw) (h3 : 1 ≤ ch) (h4 : ch ≤ lh) :
    ∃ out,
      ((if cw < lw then forLoop (carveVertical A lw lh) 0 (lw - cw) p else some p).bind
        fun q => if ch < lh then forLoop (carveHorizontal A cw lh) 0 (lh - ch) q else some q)
        = some out ∧
      ((verticalCarves A (lw - cw) p lw lh).bind fun q => horizontalCarves A (lh - ch) q cw lh)
        = some out ∧
      WellFormed out cw ch := by
  have hb := wf_bounds hwf
  obtain ⟨q, hq1, hq2, hq3⟩ := vertical_loop A lw lh (by omega) (lw - cw) 0 p (by omega) hwf
  have e1 : lw - 0 - (lw - cw) = cw := by omega
  rw [e1] at hq3
  obtain ⟨out, ho1, ho2, ho3⟩ := horizontal_loop A cw lh (by omega) (lh - ch) 0 q (by omega) hq3
  have e2 : lh - 0 - (lh - ch) = ch := by omega
  rw [e2] at ho3
  have hv : (if cw < lw then forLoop (carveVertical A lw lh) 0 (lw - cw) p else some p)
      = some q := by
    split
    · exact hq1
    · have : lw - cw = 0 := by omega
      rw [this] at hq1
      exact hq1
  have hh : (if ch < lh then forLoop (carveHorizontal A cw lh) 0 (lh - ch) q else some q)
      = some out := by
    split
    · exact ho1
    · have : lh - ch = 0 := by omega
      rw [this] at ho1
      exact ho1
  rw [Nat.sub_zero] at hq2 ho2
  refine ⟨out, by rw [hv, Option.some_bind, hh], ?_, ho3⟩
  rw [hq2, Option.some_bind]
  exact ho2

/-- C6: for a state whose current buffer is a well-formed `cur_width` by
`cur_height` buffer and a target with `1 ≤ targetWidth ≤ cur_width` and
`1 ≤ targetHeight ≤ cur_height`, the resize handler leaves a buffer of
`targetWidth * targetHeight` pixels, equal to the result of
`cur_width - targetWidth` vertical carve steps at height `cur_height`
followed by `cur_height - targetHeight` horizontal carve steps at width
`targetWidth`. -/
theorem resize_shrink (A : Arith) (st : CarveState) (tw th : Nat)
    (hwf : WellFormed st.cur_pixels st.cur_width st.cur_height)
    (h1 : 1 ≤ tw) (h2 : tw ≤ st.cur_width) (h3 : 1 ≤ th) (h4 : th ≤ st.cur_height) :
    ∃ st', resize A st (tw : Int) (th : Int) = some st' ∧
      st'.cur_pixels.length = tw * th ∧ st'.cur_width = tw ∧ st'.cur_height = th ∧
      ((verticalCarves A (st.cur_width - tw) st.cur_pixels st.cur_width st.cur_height).bind
        fun p => horizontalCarves A (st.cur_height - th) p tw st.cur_height)
        = some st'.cur_pixels := by
  have hb := wf_bounds hwf
  obtain ⟨out, ho1, ho2, ho3⟩ := resize_core A st.cur_pixels st.cur_width st.cur_height tw th hwf
    h1 h2 h3 h4
  have etw : toU32 (tw : Int) = tw := toU32_natCast tw (by omega)
  have eth : toU32 (th : Int) = th := toU32_natCast th (by omega)
  have hg : decide (tw > st.cur_width ∨ th > st.cur_height) = false := by
    simp only [decide_eq_false_iff_not]
    omega
  refine ⟨{ st with cur_pixels := out, cur_width := tw, cur_height := th }, ?_, ho3.2.2.1, rfl,
    rfl, ho2⟩
  unfold resize
  simp only [etw, eth, hg, Bool.false_eq_true, if_false]
  rw [ho1]
  rfl

theorem resize_shrink_witness :
    WellFormed (CarveState.init scenario 3 2).cur_pixels (CarveState.init scenario 3 2).cur_width
        (CarveState.init scenario 3 2).cur_height ∧
      (resize Arith.u32 (CarveState.init scenario 3 2) 2 1).map CarveState.cur_pixels
        = some [px 10 10 10, px 0 0 0] ∧
      ∃ st', resize Arith.u32 (CarveState.init scenario 3 2) ((2 : Nat) : Int) ((1 : Nat) : Int)
          = some st' ∧
        st'.cur_pixels.length = 2 * 1 ∧ st'.cur_width = 2 ∧ st'.cur_height = 1 ∧
        ((verticalCarves Arith.u32 ((CarveState.init scenario 3 2).cur_width - 2)
            (CarveState.init scenario 3 2).cur_pixels (CarveState.init scenario 3 2).cur_width
            (CarveState.init scenario 3 2).cur_height).bind
          fun p => horizontalCarves Arith.u32 ((CarveState.init scenario 3 2).cur_height - 1) p 2
            (CarveState.init scenario 3 2).cur_height) = some st'.cur_pixels :=
  ⟨by unfold WellFormed; decide, by decide,
    resize_shrink Arith.u32 (CarveState.init scenario 3 2) 2 1 (by unfold WellFormed; decide)
      (by decide) (by decide) (by decide) (by decide)⟩

theorem resize_reset (A : Arith) (st : CarveState) (data1 data2 : Int)
    (hgrow : toU32 data1 > st.cur_width ∨ toU32 data2 > st.cur_height) :
    resize A st data1 data2
      = resize A (CarveState.init st.orig_pixels st.width st.height) data1 data2 := by
  have hg : decide (toU32 data1 > st.cur_width ∨ toU32 data2 > st.cur_height) = true := by
    simp only [decide_eq_true_eq]
    exact hgrow
  unfold resize CarveState.init
  simp only [hg, if_true]
  by_cases hg' : toU32 data1 > st.width ∨ toU32 data2 > st.height
  · have hd : decide (toU32 data1 > st.width ∨ toU32 data2 > st.height) = true := by
      simp only [decide_eq_true_eq]
      exact hg'
    simp only [hd, if_true]
  · have hd : decide (toU32 data1 > st.width ∨ toU32 data2 > st.height) = false := by
      simp only [decide_eq_false_iff_not]
      exact hg'
    simp only [hd, Bool.false_eq_true, if_false]

/-- C7: a resize request that grows at least one axis beyond the current
buffer (the other axis may shrink) leaves the same buffer, and the same
state, as the same request handled in the initial state (the original buffer
with the original dimensions): the carving done so far is discarded and the
current buffer has no influence. -/
theorem resize_growth_resets (A : Arith) (st : CarveState) (data1 data2 : Int)
    (hgrow : toU32 data1 > st.cur_width ∨ toU32 data2 > st.cur_height) :
    (resize A st data1 data2).map CarveState.cur_pixels
        = (resize A (CarveState.init st.orig_pixels st.width st.height) data1 data2).map
            CarveState.cur_pixels ∧
      resize A st data1 data2
        = resize A (CarveState.init st.orig_pixels st.width st.height) data1 data2 := by
  have h := resize_reset A st data1 data2 hgrow
  constructor
  · rw [h]
  · exact h

theorem resize_growth_resets_witness :
    (toU32 3 > 2 ∨ toU32 1 > 2) ∧
      ((resize Arith.u32
          { orig_pixels := scenario, width := 3, height := 2,
            cur_pixels := [px 10 10 10, px 0 0 0, px 0 0 0, px 0 0 0],
            cur_width := 2, cur_height := 2 } 3 1).map CarveState.cur_pixels
        = (resize Arith.u32 (CarveState.init scenario 3 2) 3 1).map CarveState.cur_pixels ∧
      resize Arith.u32
          { orig_pixels := scenario, width := 3, height := 2,
            cur_pixels := [px 10 10 10, px 0 0 0, px 0 0 0, px 0 0 0],
            cur_width := 2, cur_height := 2 } 3 1
        = resize Arith.u32 (CarveState.init scenario 3 2) 3 1) ∧
      (resize Arith.u32 (CarveState.init scenario 3 2) 3 1).map CarveState.cur_pixels
        = some [px 0 0 0, px 10 10 10, px 0 0 0] :=
  ⟨by decide,
    resize_growth_resets Arith.u32
      { orig_pixels := scenario, width := 3, height := 2,
        cur_pixels := [px 10 10 10, px 0 0 0, px 0 0 0, px 0 0 0],
        cur_width := 2, cur_height := 2 } 3 1 (by decide),
    by decide⟩

theorem resize_within (A : Arith) (st : CarveState) (tw th : Nat)
    (hwf : WellFormed st.cur_pixels st.cur_width st.cur_height)
    (h1 : 1 ≤ tw) (h2 : tw ≤ st.cur_width) (h3 : 1 ≤ th) (h4 : th ≤ st.cur_height) :
    ∃ out, resize A st (tw : Int) (th : Int)
        = some { st with cur_pixels := out, cur_width := tw, cur_height := th } ∧
      WellFormed out tw th := by
  have hb := wf_bounds hwf
  obtain ⟨out, ho1, _, ho3⟩ := resize_core A st.cur_pixels st.cur_width st.cur_height tw th hwf
    h1 h2 h3 h4
  have etw : toU32 (tw : Int) = tw := toU32_natCast tw (by omega)
  have eth : toU32 (th : Int) = th := toU32_natCast th (by omega)
  have hg : decide (tw > st.cur_width ∨ th > st.cur_height) = false := by
    simp only [decide_eq_false_iff_not]
    omega
  refine ⟨out, ?_, ho3⟩
  unfold resize
  simp only [etw, eth, hg, Bool.false_eq_true, if_false]
  rw [ho1]
  rfl

theorem resize_step_inv (A : Arith) (orig : List RGB) (W H : Nat) (hwf : WellFormed orig W H)
    (st : CarveState) (tw th : Nat)
    (ho : st.orig_pixels = orig ∧ st.width = W ∧ st.height = H)
    (hcur : WellFormed st.cur_pixels st.cur_width st.cur_height)
    (h1 : 1 ≤ tw) (h2 : tw ≤ W) (h3 : 1 ≤ th) (h4 : th ≤ H) :
    ∃ st', resize A st (tw : Int) (th : Int) = some st' ∧
      (st'.orig_pixels = orig ∧ st'.width = W ∧ st'.height = H) ∧
      WellFormed st'.cur_pixels st'.cur_width st'.cur_height ∧
      st'.cur_width = tw ∧ st'.cur_height = th := by
  obtain ⟨ho1, ho2, ho3⟩ := ho
  by_cases hgrow : toU32 (tw : Int) > st.cur_width ∨ toU32 (th : Int) > st.cur_height
  · rw [resize_reset A st _ _ hgrow, ho1, ho2, ho3]
    obtain ⟨out, hout, hwfo⟩ := resize_within A (CarveState.init orig W H) tw th hwf h1 h2 h3 h4
    exact ⟨_, hout, ⟨rfl, rfl, rfl⟩, hwfo, rfl, rfl⟩
  · have hb := wf_bounds hwf
    have etw : toU32 (tw : Int) = tw := toU32_natCast tw (by omega)
    have eth : toU32 (th : Int) = th := toU32_natCast th (by omega)
    rw [etw, eth] at hgrow
    obtain ⟨out, hout, hwfo⟩ := resize_within A st tw th hcur h1 (by omega) h3 (by omega)
    exact ⟨_, hout, ⟨ho1, ho2, ho3⟩, hwfo, rfl, rfl⟩

theorem resizeAll_inv (A : Arith) (orig : List RGB) (W H : Nat) (hwf : WellFormed orig W H)
    (reqs : List (Nat × Nat)) :
    ∀ st : CarveState, (st.orig_pixels = orig ∧ st.width = W ∧ st.height = H) →
      WellFormed st.cur_pixels st.cur_width st.cur_height →
      (∀ r ∈ reqs, 1 ≤ r.1 ∧ r.1 ≤ W ∧ 1 ≤ r.2 ∧ r.2 ≤ H) →
      ∃ st', resizeAll A st reqs = some st' ∧
        (st'.orig_pixels = orig ∧ st'.width = W ∧ st'.height = H) ∧
        WellFormed st'.cur_pixels st'.cur_width st'.cur_height := by
  induction reqs with
  | nil =>
    intro st ho hcur _
    exact ⟨st, rfl, ho, hcur⟩
  | cons r rest ih =>
    intro st ho hcur hb
    obtain ⟨b1, b2, b3, b4⟩ := hb r (List.mem_cons_self _ _)
    obtain ⟨s1, hs1, ho1, hcur1, _⟩ := resize_step_inv A orig W H hwf st r.1 r.2 ho hcur b1 b2 b3 b4
    obtain ⟨s2, hs2, ho2, hcur2⟩ := ih s1 ho1 hcur1 (fun q hq => hb q (List.mem_cons_of_mem _ hq))
    exact ⟨s2, by rw [resizeAll, hs1, Option.some_bind, hs2], ho2, hcur2⟩

theorem resizeAll_append (A : Arith) (l1 l2 : List (Nat × Nat)) :
    ∀ st : CarveState,
      resizeAll A st (l1 ++ l2) = (resizeAll A st l1).bind fun s => resizeAll A s l2 := by
  induction l1 with
  | nil =>
    intro st
    rfl
  | cons r rest ih =>
    intro st
    simp only [List.cons_append, resizeAll]
    cases resize A st (r.1 : Int) (r.2 : Int) with
    | none => rfl
    | some s => exact ih s

/-- C8 as the code has it: starting from a well-formed original buffer, after
each request of a sequence of resize requests whose targets are at least 1
and at most the original width and height, the current buffer has exactly
`cur_width * cur_height` pixels, `cur_width` and `cur_height` being the
requested target. -/
theorem resizeAll_dimensions (A : Arith) (orig : List RGB) (W H : Nat)
    (hwf : WellFormed orig W H) (reqs : List (Nat × Nat)) (req : Nat × Nat)
    (hb : ∀ r ∈ reqs ++ [req], 1 ≤ r.1 ∧ r.1 ≤ W ∧ 1 ≤ r.2 ∧ r.2 ≤ H) :
    ∃ st', resizeAll A (CarveState.init orig W H) (reqs ++ [req]) = some st' ∧
      st'.cur_width = req.1 ∧ st'.cur_height = req.2 ∧
      st'.cur_pixels.length = st'.cur_width * st'.cur_height := by
  obtain ⟨s1, hs1, ho1, hcur1⟩ := resizeAll_inv A orig W H hwf reqs (CarveState.init orig W H)
    ⟨rfl, rfl, rfl⟩ hwf (fun r hr => hb r (List.mem_append_left _ hr))
  obtain ⟨b1, b2, b3, b4⟩ := hb req (List.mem_append_right _ (List.mem_singleton_self _))
  obtain ⟨s2, hs2, _, hcur2, hw2, hh2⟩ :=
    resize_step_inv A orig W H hwf s1 req.1 req.2 ho1 hcur1 b1 b2 b3 b4
  refine ⟨s2, ?_, hw2, hh2, hcur2.2.2.1⟩
  rw [resizeAll_append, hs1, Option.some_bind, resizeAll, hs2]
  rfl

theorem resizeAll_dimensions_witness :
    WellFormed scenario 3 2 ∧
      (∀ r ∈ [((2 : Nat), (2 : Nat)), (3, 1)] ++ [(1, 1)], 1 ≤ r.1 ∧ r.1 ≤ 3 ∧ 1 ≤ r.2 ∧ r.2 ≤ 2) ∧
      ∃ st', resizeAll Arith.u32 (CarveState.init scenario 3 2) ([(2, 2), (3, 1)] ++ [(1, 1)])
          = some st' ∧
        st'.cur_width = (1, 1).1 ∧ st'.cur_height = (1, 1).2 ∧
        st'.cur_pixels.length = st'.cur_width * st'.cur_height :=
  ⟨by unfold WellFormed; decide, by decide,
    resizeAll_dimensions Arith.u32 scenario 3 2 (by unfold WellFormed; decide) [(2, 2), (3, 1)]
      (1, 1) (by decide)⟩

/-- The request 4 by 2 on the 3 by 2 scenario: the buffer stays the original
6 pixels while `cur_width * cur_height` becomes 8. -/
theorem resize_beyond_original :
    (resizeAll Arith.u32 (CarveState.init scenario 3 2) [(4, 2)]).map
        (fun st => (st.cur_width, st.cur_height, st.cur_pixels.length)) = some (4, 2, 6) ∧
      6 ≠ 4 * 2 := by
  decide

theorem rgb_sub_le (a b : RGB) : a.sub b ≤ 195075 := by
  obtain ⟨r1, r2⟩ := square_toU32_sub a.red.val b.red.val a.red.isLt b.red.isLt
  obtain ⟨g1, g2⟩ := square_toU32_sub a.green.val b.green.val a.green.isLt b.green.isLt
  obtain ⟨b1, b2⟩ := square_toU32_sub a.blue.val b.blue.val a.blue.isLt b.blue.isLt
  unfold RGB.sub
  rw [r1, g1, b1, Nat.mod_eq_of_lt (a := _ + _) (by omega), Nat.mod_eq_of_lt (by omega)]
  omega

theorem dp_exact_le (n : Nat) (delta : Nat → Nat → Nat → Nat) (B : Nat)
    (hB : ∀ r x c, delta r x c ≤ B) (h : Nat) :
    ∀ x, x < n → (dp Arith.exact n delta h x).cost ≤ B * h := by
  induction h with
  | zero =>
    intro x _
    simp [dp]
  | succ k ih =>
    intro x hx
    obtain ⟨c, _, hcost, hcn, _⟩ := dp_succ_best Arith.exact n delta k x hx
    have h1 := ih c hcn
    have h2 := hB (k + 1) x c
    rw [hcost]
    simp only [Arith.add]
    calc (dp Arith.exact n delta k c).cost + delta (k + 1) x c ≤ B * k + B := by omega
      _ = B * (k + 1) := by ring

theorem relax_u32_eq_exact (n x : Nat) (pc d : Nat → Nat)
    (hsmall : ∀ c, c < n → pc c + d c < 2 ^ 32) (cur : SeamValue) (i : Int) :
    relax Arith.u32 n x pc d cur i = relax Arith.exact n x pc d cur i := by
  unfold relax
  by_cases hs : 0 ≤ (x : Int) + i ∧ (x : Int) + i < (n : Int)
  · have hc : ((x : Int) + i).toNat < n := by omega
    have e : Arith.u32.add (pc ((x : Int) + i).toNat) (d ((x : Int) + i).toNat)
        = Arith.exact.add (pc ((x : Int) + i).toNat) (d ((x : Int) + i).toNat) := by
      simp only [Arith.add]
      exact Nat.mod_eq_of_lt (hsmall _ hc)
    rw [if_pos hs, if_pos hs, e]
  · rw [if_neg hs, if_neg hs]

theorem cellFrom_u32_eq_exact (n x : Nat) (pc d : Nat → Nat)
    (hsmall : ∀ c, c < n → pc c + d c < 2 ^ 32) (cur : SeamValue) :
    cellFrom Arith.u32 n x pc d cur = cellFrom Arith.exact n x pc d cur := by
  unfold cellFrom
  simp only [List.foldl, relax_u32_eq_exact n x pc d hsmall]

theorem dp_u32_eq_exact (n layers : Nat) (delta : Nat → Nat → Nat → Nat) (B : Nat)
    (hB : ∀ r x c, delta r x c ≤ B) (hsmall : B * (layers - 1) < 2 ^ 32) (h : Nat) :
    h < layers → ∀ x, x < n → dp Arith.u32 n delta h x = dp Arith.exact n delta h x := by
  induction h with
  | zero =>
    intro _ x _
    rfl
  | succ k ih =>
    intro hk x hx
    simp only [dp]
    rw [cellFrom_congr Arith.u32 n x (fun c => (dp Arith.u32 n delta k c).cost)
      (fun c => (dp Arith.exact n delta k c).cost) (delta (k + 1) x) (delta (k + 1) x)
      (fun c hc => by simp only [ih (by omega) c hc]) (fun c _ => rfl)]
    apply cellFrom_u32_eq_exact
    intro c hc
    have h1 := dp_exact_le n delta B hB k c hc
    have h2 := hB (k + 1) x c
    have h3 : B * k + B ≤ B * (layers - 1) := by
      calc B * k + B = B * (k + 1) := by ring
        _ ≤ B * (layers - 1) := Nat.mul_le_mul_left _ (by omega)
    omega

theorem vDelta_le (pixels : List RGB) (width : Nat) (r x c : Nat) :
    vDelta pixels width r x c ≤ 195075 :=
  rgb_sub_le _ _

theorem hDelta_le (pixels : List RGB) (width : Nat) (r x c : Nat) :
    hDelta pixels width r x c ≤ 195075 :=
  rgb_sub_le _ _

theorem getVerticalSeam_u32_eq_exact (pixels : List RGB) (width height : Nat)
    (hwf : WellFormed pixels width height) (hsmall : 195075 * (height - 1) < 2 ^ 32) :
    getVerticalSeam Arith.u32 pixels width height
      = getVerticalSeam Arith.exact pixels width height := by
  unfold getVerticalSeam
  rw [getVerticalSeam_paths_eq Arith.u32 pixels width height hwf,
    getVerticalSeam_paths_eq Arith.exact pixels width height hwf,
    tab_congr fun r x hr hx =>
      dp_u32_eq_exact width height (vDelta pixels width) 195075 (vDelta_le pixels width) hsmall
        r hr x hx]

theorem getHorizontalSeam_u32_eq_exact (pixels : List RGB) (width height : Nat)
    (hwf : WellFormed pixels width height) (hsmall : 195075 * (width - 1) < 2 ^ 32) :
    getHorizontalSeam Arith.u32 pixels width height
      = getHorizontalSeam Arith.exact pixels width height := by
  unfold getHorizontalSeam
  rw [getHorizontalSeam_paths_eq Arith.u32 pixels width height hwf,
    getHorizontalSeam_paths_eq Arith.exact pixels width height hwf,
    tab_congr fun r x hr hx =>
      dp_u32_eq_exact height width (hDelta pixels width) 195075 (hDelta_le pixels width) hsmall
        r hr x hx]

theorem seam_pathCost_le (pixels : List RGB) (width height m : Nat) (hh1 : 1 ≤ height)
    (seam : List Nat)
    (hf : Follows (dp Arith.exact width (vDelta pixels width)) height width m 0 seam)
    (hm : FirstMin (dp Arith.exact width (vDelta pixels width) (height - 1)) width m)
    (s : List Nat) (hs : IsSeam s height width) :
    pathCost pixels width seam ≤ pathCost pixels width s := by
  have hh : height - 1 < height := by omega
  have e1 := dp_cost_eq_costUpTo width (vDelta pixels width) height _ seam hf (height - 1) hh
  have e2 := dp_cost_le_costUpTo width (vDelta pixels width) height s hs (height - 1) hh
  have e3 := hm.2.1 (s.getD (height - 1) 0) (hs.2.1 (height - 1) hh)
  rw [getD_of_getElem? hf.2.1] at e1
  rw [pathCost_eq_costUpTo, pathCost_eq_costUpTo, hf.1, hs.1]
  have : costUpTo (vDelta pixels width) seam (height - 1)
      ≤ costUpTo (vDelta pixels width) s (height - 1) := by omega
  exact_mod_cast this

/-- C1: over exact integer costs `getVerticalSeam` returns, on a well-formed
buffer, a vertical seam (one column below `width` per row, consecutive
entries at most one apart) of minimum total cost among all vertical seams:
its `pathCost` is at most the `pathCost` of every sequence of `height`
columns below `width` whose consecutive entries differ by at most one.  Where
no cumulative cost can reach `2 ^ 32` (`195075 * (height - 1) < 2 ^ 32`) the
code's 32-bit arithmetic returns this very seam. -/
theorem getVerticalSeam_optimal (pixels : List RGB) (width height : Nat)
    (hwf : WellFormed pixels width height) :
    ∃ seam, getVerticalSeam Arith.exact pixels width height = some seam ∧
      IsSeam seam height width ∧
      (∀ s : List Nat, IsSeam s height width →
        pathCost pixels width seam ≤ pathCost pixels width s) ∧
      (195075 * (height - 1) < 2 ^ 32 →
        getVerticalSeam Arith.u32 pixels width height = some seam) := by
  obtain ⟨seam, hseam, hf, hm⟩ := getVerticalSeam_follows Arith.exact pixels width height hwf
  refine ⟨seam, hseam, ?_, ?_, ?_⟩
  · exact follows_isSeam Arith.exact width _ height _ seam hm.1 hf
  · intro s hs
    have hh : height - 1 < height := by have := hwf.2.1; omega
    have e1 := dp_cost_eq_costUpTo width (vDelta pixels width) height _ seam hf (height - 1) hh
    have e2 := dp_cost_le_costUpTo width (vDelta pixels width) height s hs (height - 1) hh
    have e3 := hm.2.1 (s.getD (height - 1) 0) (hs.2.1 (height - 1) hh)
    rw [getD_of_getElem? hf.2.1] at e1
    rw [pathCost_eq_costUpTo, pathCost_eq_costUpTo, hf.1, hs.1]
    have : costUpTo (vDelta pixels width) seam (height - 1)
        ≤ costUpTo (vDelta pixels width) s (height - 1) := by omega
    exact_mod_cast this
  · intro hsmall
    rw [getVerticalSeam_u32_eq_exact pixels width height hwf hsmall]
    exact hseam

theorem getVerticalSeam_optimal_witness :
    WellFormed stripes 3 3 ∧
      getVerticalSeam Arith.exact stripes 3 3 = some [1, 1, 1] ∧
      pathCost stripes 3 [1, 1, 1] = 1 ∧
      ∃ seam, getVerticalSeam Arith.exact stripes 3 3 = some seam ∧
        IsSeam seam 3 3 ∧
        (∀ s : List Nat, IsSeam s 3 3 → pathCost stripes 3 seam ≤ pathCost stripes 3 s) ∧
        (195075 * (3 - 1) < 2 ^ 32 → getVerticalSeam Arith.u32 stripes 3 3 = some seam) := by
  have hwf : WellFormed stripes 3 3 := by unfold WellFormed; decide
  have h := getVerticalSeam_optimal stripes 3 3 hwf
  exact ⟨hwf, by decide, by decide, h⟩

/-- C11: on a well-formed buffer the last entry of the seam returned by
`getVerticalSeam` is the smallest column whose cumulative cost in the last
row of the table is the minimum of that row, and every earlier entry is the
predecessor stored in the table for the entry of the next row. -/
theorem getVerticalSeam_backtrack (A : Arith) (pixels : List RGB) (width height : Nat)
    (hwf : WellFormed pixels width height) :
    ∃ paths seam, getVerticalSeam_paths A pixels width height = some paths ∧
      getVerticalSeam A pixels width height = some seam ∧ seam.length = height ∧
      seam.getD (height - 1) 0 < width ∧
      (∀ j, j < width → (entry paths (height - 1) (seam.getD (height - 1) 0)).cost
        ≤ (entry paths (height - 1) j).cost) ∧
      (∀ j, j < seam.getD (height - 1) 0 →
        (entry paths (height - 1) (seam.getD (height - 1) 0)).cost
          < (entry paths (height - 1) j).cost) ∧
      ∀ r, 1 ≤ r → r < height →
        ((seam.getD (r - 1) 0 : Nat) : Int) = (entry paths r (seam.getD r 0)).prev := by
  obtain ⟨seam, hseam, hf, hm⟩ := getVerticalSeam_follows A pixels width height hwf
  have hh : height - 1 < height := by have := hwf.2.1; omega
  obtain ⟨hlen, hlast, hlink⟩ := hf
  obtain ⟨hm1, hm2, hm3⟩ := hm
  refine ⟨_, seam, getVerticalSeam_paths_eq A pixels width height hwf, hseam, hlen, ?_, ?_, ?_, ?_⟩
  · rw [getD_of_getElem? hlast]
    exact hm1
  · intro j hj
    rw [getD_of_getElem? hlast, entry_tab _ _ _ _ _ hh hm1, entry_tab _ _ _ _ _ hh hj]
    exact hm2 j hj
  · intro j hj
    rw [getD_of_getElem? hlast] at hj ⊢
    rw [entry_tab _ _ _ _ _ hh hm1, entry_tab _ _ _ _ _ hh (by omega)]
    exact hm3 j hj
  · intro r hr1 hr
    obtain ⟨a, b, ha, hb, hbn, hab⟩ := hlink r (by omega) hr
    rw [getD_of_getElem? ha, getD_of_getElem? hb, entry_tab _ _ _ _ _ hr hbn]
    exact hab

theorem getVerticalSeam_backtrack_witness :
    WellFormed scenario 3 2 ∧
      (getVerticalSeam_paths Arith.u32 scenario 3 2).map
          (fun paths => (paths.getD 1 []).map SeamValue.cost) = some [0, 0, 0] ∧
      getVerticalSeam Arith.u32 scenario 3 2 = some [0, 0] ∧
      ∃ paths seam, getVerticalSeam_paths Arith.u32 scenario 3 2 = some paths ∧
        getVerticalSeam Arith.u32 scenario 3 2 = some seam ∧ seam.length = 2 ∧
        seam.getD (2 - 1) 0 < 3 ∧
        (∀ j, j < 3 → (entry paths (2 - 1) (seam.getD (2 - 1) 0)).cost
          ≤ (entry paths (2 - 1) j).cost) ∧
        (∀ j, j < seam.getD (2 - 1) 0 →
          (entry paths (2 - 1) (seam.getD (2 - 1) 0)).cost < (entry paths (2 - 1) j).cost) ∧
        ∀ r, 1 ≤ r → r < 2 →
          ((seam.getD (r - 1) 0 : Nat) : Int) = (entry paths r (seam.getD r 0)).prev :=
  ⟨by unfold WellFormed; decide, by decide, by decide,
    getVerticalSeam_backtrack Arith.u32 scenario 3 2 (by unfold WellFormed; decide)⟩

/-- C17: over exact integer costs, on a well-formed buffer, the cumulative
cost stored in the last row of the table at the end column of the returned
seam is the `pathCost` of the returned seam, the sum of the dissimilarities
along the seam itself; for `height = 1` it is 0. -/
theorem getVerticalSeam_cost (pixels : List RGB) (width height : Nat)
    (hwf : WellFormed pixels width height) :
    ∃ paths seam, getVerticalSeam_paths Arith.exact pixels width height = some paths ∧
      getVerticalSeam Arith.exact pixels width height = some seam ∧
      (((entry paths (height - 1) (seam.getD (height - 1) 0)).cost : Nat) : Int)
        = pathCost pixels width seam ∧
      (height = 1 → (entry paths (height - 1) (seam.getD (height - 1) 0)).cost = 0) := by
  obtain ⟨seam, hseam, hf, hm⟩ := getVerticalSeam_follows Arith.exact pixels width height hwf
  have hh : height - 1 < height := by have := hwf.2.1; omega
  have e1 := dp_cost_eq_costUpTo width (vDelta pixels width) height _ seam hf (height - 1) hh
  have hcol : seam.getD (height - 1) 0 < width := by
    rw [getD_of_getElem? hf.2.1]
    exact hm.1
  refine ⟨_, seam, getVerticalSeam_paths_eq Arith.exact pixels width height hwf, hseam, ?_, ?_⟩
  · rw [entry_tab _ _ _ _ _ hh hcol, e1, pathCost_eq_costUpTo, hf.1]
  · intro h1
    rw [entry_tab _ _ _ _ _ hh hcol, e1, h1]
    rfl

theorem getVerticalSeam_cost_witness :
    WellFormed stripes 3 3 ∧
      getVerticalSeam Arith.exact stripes 3 3 = some [1, 1, 1] ∧
      pathCost stripes 3 [1, 1, 1] = 1 ∧
      (getVerticalSeam_paths Arith.exact stripes 3 3).map (fun paths => (entry paths 2 1).cost)
        = some 1 ∧
      ∃ paths seam, getVerticalSeam_paths Arith.exact stripes 3 3 = some paths ∧
        getVerticalSeam Arith.exact stripes 3 3 = some seam ∧
        (((entry paths (3 - 1) (seam.getD (3 - 1) 0)).cost : Nat) : Int)
          = pathCost stripes 3 seam ∧
        (3 = 1 → (entry paths (3 - 1) (seam.getD (3 - 1) 0)).cost = 0) := by
  have hwf : WellFormed stripes 3 3 := by unfold WellFormed; decide
  have h := getVerticalSeam_cost stripes 3 3 hwf
  exact ⟨hwf, by decide, by decide, by decide, h⟩

theorem rgb_sub_alpha (a a' b b' : RGB) (ha : a.red = a'.red ∧ a.green = a'.green ∧ a.blue = a'.blue)
    (hb : b.red = b'.red ∧ b.green = b'.green ∧ b.blue = b'.blue) : a.sub b = a'.sub b' := by
  unfold RGB.sub
  rw [ha.1, ha.2.1, ha.2.2, hb.1, hb.2.1, hb.2.2]

theorem pixelAt_channels (P Q : List RGB) (hlen : Q.length = P.length)
    (hrgb : ∀ i, i < P.length → (P.getD i RGB.zero).red = (Q.getD i RGB.zero).red ∧
      (P.getD i RGB.zero).green = (Q.getD i RGB.zero).green ∧
      (P.getD i RGB.zero).blue = (Q.getD i RGB.zero).blue) (width h x : Nat) :
    (pixelAt P width h x).red = (pixelAt Q width h x).red ∧
      (pixelAt P width h x).green = (pixelAt Q width h x).green ∧
      (pixelAt P width h x).blue = (pixelAt Q width h x).blue := by
  unfold pixelAt
  by_cases hi : h * width + x < P.length
  · exact hrgb _ hi
  · have e1 : P.getD (h * width + x) RGB.zero = RGB.zero := by
      rw [List.getD_eq_getElem?_getD, List.getElem?_eq_none (by omega)]
      rfl
    have e2 : Q.getD (h * width + x) RGB.zero = RGB.zero := by
      rw [List.getD_eq_getElem?_getD, List.getElem?_eq_none (by omega)]
      rfl
    rw [e1, e2]
    exact ⟨rfl, rfl, rfl⟩

/-- C13: alpha never influences the seam: for two well-formed buffers of the
same dimensions that agree on the red, green and blue channel of every pixel,
`getVerticalSeam` returns the same seam for both and `getHorizontalSeam`
returns the same seam for both. -/
theorem seam_ignores_alpha (A : Arith) (P Q : List RGB) (width height : Nat)
    (hwf : WellFormed P width height) (hlen : Q.length = width * height)
    (hrgb : ∀ i, i < width * height → (P.getD i RGB.zero).red = (Q.getD i RGB.zero).red ∧
      (P.getD i RGB.zero).green = (Q.getD i RGB.zero).green ∧
      (P.getD i RGB.zero).blue = (Q.getD i RGB.zero).blue) :
    (∃ s, getVerticalSeam A P width height = some s ∧
        getVerticalSeam A Q width height = some s) ∧
      ∃ s, getHorizontalSeam A P width height = some s ∧
        getHorizontalSeam A Q width height = some s := by
  have hwfQ : WellFormed Q width height := ⟨hwf.1, hwf.2.1, hlen, hwf.2.2.2⟩
  have hlen' : Q.length = P.length := by rw [hlen, hwf.2.2.1]
  have hrgb' : ∀ i, i < P.length → (P.getD i RGB.zero).red = (Q.getD i RGB.zero).red ∧
      (P.getD i RGB.zero).green = (Q.getD i RGB.zero).green ∧
      (P.getD i RGB.zero).blue = (Q.getD i RGB.zero).blue := by
    intro i hi
    exact hrgb i (by rw [← hwf.2.2.1]; exact hi)
  have hpix := pixelAt_channels P Q hlen' hrgb' width
  have hv : ∀ r x c, vDelta P width r x c = vDelta Q width r x c := fun r x c =>
    rgb_sub_alpha _ _ _ _ (hpix r x) (hpix (r - 1) c)
  have hh : ∀ r x c, hDelta P width r x c = hDelta Q width r x c := fun r x c =>
    rgb_sub_alpha _ _ _ _ (hpix x r) (hpix c (r - 1))
  constructor
  · obtain ⟨s, hs, _⟩ := getVerticalSeam_follows A P width height hwf
    refine ⟨s, hs, ?_⟩
    unfold getVerticalSeam at hs ⊢
    rw [getVerticalSeam_paths_eq A P width height hwf] at hs
    rw [getVerticalSeam_paths_eq A Q width height hwfQ,
      tab_congr fun r x hr hx =>
        dp_congr A width height (vDelta Q width) (vDelta P width)
          (fun r x c _ _ _ _ => (hv r x c).symm) r hr x hx]
    exact hs
  · obtain ⟨s, hs, _⟩ := getHorizontalSeam_follows A P width height hwf
    refine ⟨s, hs, ?_⟩
    unfold getHorizontalSeam at hs ⊢
    rw [getHorizontalSeam_paths_eq A P width height hwf] at hs
    rw [getHorizontalSeam_paths_eq A Q width height hwfQ,
      tab_congr fun r x hr hx =>
        dp_congr A height width (hDelta Q width) (hDelta P width)
          (fun r x c _ _ _ _ => (hh r x c).symm) r hr x hx]
    exact hs

theorem seam_ignores_alpha_witness :
    WellFormed stripes 3 3 ∧
      (∃ s, getVerticalSeam Arith.u32 stripes 3 3 = some s ∧
          getVerticalSeam Arith.u32 (stripes.map fun p => p.withAlpha 7) 3 3 = some s) ∧
        ∃ s, getHorizontalSeam Arith.u32 stripes 3 3 = some s ∧
          getHorizontalSeam Arith.u32 (stripes.map fun p => p.withAlpha 7) 3 3 = some s := by
  have hwf : WellFormed stripes 3 3 := by unfold WellFormed; decide
  have hlen : (stripes.map fun p => p.withAlpha 7).length = 3 * 3 := by decide
  have hrgb : ∀ i, i < 3 * 3 →
      (stripes.getD i RGB.zero).red
        = ((stripes.map fun p => p.withAlpha 7).getD i RGB.zero).red ∧
      (stripes.getD i RGB.zero).green
        = ((stripes.map fun p => p.withAlpha 7).getD i RGB.zero).green ∧
      (stripes.getD i RGB.zero).blue
        = ((stripes.map fun p => p.withAlpha 7).getD i RGB.zero).blue := by
    intro i hi
    interval_cases i <;> exact ⟨rfl, rfl, rfl⟩
  have h := seam_ignores_alpha Arith.u32 stripes (stripes.map fun p => p.withAlpha 7) 3 3
    hwf hlen hrgb
  exact ⟨hwf, h⟩

/-- C14: the four core operations are total on well-formed inputs: both seam
finders return a seam, and for every seam with one in-range entry per layer
both seam removers return a buffer; no element access is out of range (an
out-of-range access makes the embedded operation return `none`). -/
theorem core_total (A : Arith) (pixels : List RGB) (width height : Nat)
    (hwf : WellFormed pixels width height) :
    (getVerticalSeam A pixels width height).isSome = true ∧
      (getHorizontalSeam A pixels width height).isSome = true ∧
      (∀ seam : List Nat, seam.length = height → (∀ h, h < height → seam.getD h 0 < width) →
        (removeVerticalSeam seam pixels width height).isSome = true) ∧
      ∀ seam : List Nat, seam.length = width → (∀ w, w < width → seam.getD w 0 < height) →
        (removeHorizontalSeam seam pixels width height).isSome = true := by
  refine ⟨?_, ?_, ?_, ?_⟩
  · obtain ⟨s, hs, _⟩ := getVerticalSeam_follows A pixels width height hwf
    rw [hs]
    rfl
  · obtain ⟨s, hs, _⟩ := getHorizontalSeam_follows A pixels width height hwf
    rw [hs]
    rfl
  · intro seam hlen hseam
    obtain ⟨out, hout, _⟩ := removeVerticalSeam_length seam pixels width height hwf hlen hseam
    rw [hout]
    rfl
  · intro seam hlen hseam
    obtain ⟨out, hout, _⟩ := removeHorizontalSeam_length seam pixels width height hwf hlen hseam
    rw [hout]
    rfl

theorem core_total_witness :
    WellFormed [px 1 2 3, px 4 5 6] 1 2 ∧
      ((getVerticalSeam Arith.u32 [px 1 2 3, px 4 5 6] 1 2).isSome = true ∧
      (getHorizontalSeam Arith.u32 [px 1 2 3, px 4 5 6] 1 2).isSome = true ∧
      (∀ seam : List Nat, seam.length = 2 → (∀ h, h < 2 → seam.getD h 0 < 1) →
        (removeVerticalSeam seam [px 1 2 3, px 4 5 6] 1 2).isSome = true) ∧
      ∀ seam : List Nat, seam.length = 1 → (∀ w, w < 1 → seam.getD w 0 < 2) →
        (removeHorizontalSeam seam [px 1 2 3, px 4 5 6] 1 2).isSome = true) ∧
      removeVerticalSeam [0, 0] [px 1 2 3, px 4 5 6] 1 2 = some [] ∧
      removeHorizontalSeam [0] [px 1 2 3] 1 1 = some [] :=
  ⟨by unfold WellFormed; decide,
    core_total Arith.u32 [px 1 2 3, px 4 5 6] 1 2 (by unfold WellFormed; decide),
    by decide, by decide⟩

theorem paths_no_wrap (n layers : Nat) (delta : Nat → Nat → Nat → Nat)
    (hB : ∀ r x c, delta r x c ≤ 195075) (hl : layers ≤ 22018) (hl1 : 1 ≤ layers) :
    195075 * (layers - 1) < 2 ^ 32 ∧
      tab layers n (dp Arith.u32 n delta) = tab layers n (dp Arith.exact n delta) ∧
      (∀ h x, h < layers → x < n →
        (entry (tab layers n (dp Arith.exact n delta)) h x).cost ≤ 195075 * (layers - 1)) ∧
      ∀ h x c, 1 ≤ h → h < layers → x < n → c < n →
        (entry (tab layers n (dp Arith.exact n delta)) (h - 1) c).cost + delta h x c
          ≤ 195075 * (layers - 1) := by
  have hsmall : 195075 * (layers - 1) < 2 ^ 32 := by omega
  refine ⟨hsmall, ?_, ?_, ?_⟩
  · exact tab_congr fun r x hr hx => dp_u32_eq_exact n layers delta 195075 hB hsmall r hr x hx
  · intro h x hh hx
    rw [entry_tab _ _ _ _ _ hh hx]
    have := dp_exact_le n delta 195075 hB h x hx
    omega
  · intro h x c h1 hh hx hc
    rw [entry_tab _ _ _ _ _ (by omega) hc]
    have := dp_exact_le n delta 195075 hB (h - 1) c hc
    have := hB h x c
    omega

/-- C19: for a well-formed buffer with `height ≤ 22018`, every cumulative
cost in the table of `getVerticalSeam` and every candidate total
`cost_prev.cost + delta` is at most `195075 * (height - 1) < 2 ^ 32`, and the
table computed with the 32-bit arithmetic of the code is the table computed
over exact integers; the same holds for `getHorizontalSeam` when
`width ≤ 22018`. -/
theorem costs_do_not_wrap (pixels : List RGB) (width height : Nat)
    (hwf : WellFormed pixels width height) :
    (height ≤ 22018 → 195075 * (height - 1) < 2 ^ 32 ∧
      ∃ paths, getVerticalSeam_paths Arith.u32 pixels width height = some paths ∧
        getVerticalSeam_paths Arith.exact pixels width height = some paths ∧
        (∀ h x, h < height → x < width → (entry paths h x).cost ≤ 195075 * (height - 1)) ∧
        ∀ h x c, 1 ≤ h → h < height → x < width → c < width →
          (entry paths (h - 1) c).cost
            + (pixelAt pixels width h x).sub (pixelAt pixels width (h - 1) c)
            ≤ 195075 * (height - 1)) ∧
    (width ≤ 22018 → 195075 * (width - 1) < 2 ^ 32 ∧
      ∃ paths, getHorizontalSeam_paths Arith.u32 pixels width height = some paths ∧
        getHorizontalSeam_paths Arith.exact pixels width height = some paths ∧
        (∀ w y, w < width → y < height → (entry paths w y).cost ≤ 195075 * (width - 1)) ∧
        ∀ w y c, 1 ≤ w → w < width → y < height → c < height →
          (entry paths (w - 1) c).cost
            + (pixelAt pixels width y w).sub (pixelAt pixels width c (w - 1))
            ≤ 195075 * (width - 1)) := by
  constructor
  · intro hh
    obtain ⟨h1, h2, h3, h4⟩ := paths_no_wrap width height (vDelta pixels width)
      (vDelta_le pixels width) hh hwf.2.1
    refine ⟨h1, _, ?_, getVerticalSeam_paths_eq Arith.exact pixels width height hwf, h3, h4⟩
    rw [getVerticalSeam_paths_eq Arith.u32 pixels width height hwf, h2]
  · intro hw
    obtain ⟨h1, h2, h3, h4⟩ := paths_no_wrap height width (hDelta pixels width)
      (hDelta_le pixels width) hw hwf.1
    refine ⟨h1, _, ?_, getHorizontalSeam_paths_eq Arith.exact pixels width height hwf, h3, h4⟩
    rw [getHorizontalSeam_paths_eq Arith.u32 pixels width height hwf, h2]

theorem costs_do_not_wrap_witness :
    WellFormed stripes 3 3 ∧
      ((3 ≤ 22018 → 195075 * (3 - 1) < 2 ^ 32 ∧
        ∃ paths, getVerticalSeam_paths Arith.u32 stripes 3 3 = some paths ∧
          getVerticalSeam_paths Arith.exact stripes 3 3 = some paths ∧
          (∀ h x, h < 3 → x < 3 → (entry paths h x).cost ≤ 195075 * (3 - 1)) ∧
          ∀ h x c, 1 ≤ h → h < 3 → x < 3 → c < 3 →
            (entry paths (h - 1) c).cost
              + (pixelAt stripes 3 h x).sub (pixelAt stripes 3 (h - 1) c)
              ≤ 195075 * (3 - 1)) ∧
      (3 ≤ 22018 → 195075 * (3 - 1) < 2 ^ 32 ∧
        ∃ paths, getHorizontalSeam_paths Arith.u32 stripes 3 3 = some paths ∧
          getHorizontalSeam_paths Arith.exact stripes 3 3 = some paths ∧
          (∀ w y, w < 3 → y < 3 → (entry paths w y).cost ≤ 195075 * (3 - 1)) ∧
          ∀ w y c, 1 ≤ w → w < 3 → y < 3 → c < 3 →
            (entry paths (w - 1) c).cost
              + (pixelAt stripes 3 y w).sub (pixelAt stripes 3 c (w - 1))
              ≤ 195075 * (3 - 1))) := by
  have hwf : WellFormed stripes 3 3 := by unfold WellFormed; decide
  have h := costs_do_not_wrap stripes 3 3 hwf
  exact ⟨hwf, h⟩

theorem row_fill_split (update : Nat → Nat → Paths → Option Paths) (A : Arith) (layers n h : Nat)
    (dh : Nat → Nat → Nat) (h1 : 1 ≤ h)
    (hupd : ∀ (start stop : Nat) (f : Nat → Nat → SeamValue), start ≤ stop → stop ≤ n →
      update start stop (tab layers n f) = some (tab layers n fun r x =>
          if r = h ∧ start ≤ x ∧ x < stop then
            cellFrom A n x (fun c => (f (h - 1) c).cost) (dh x) (f h x)
          else f r x))
    (k : Nat) (hk : k ≤ n) (first : Bool) (f : Nat → Nat → SeamValue) :
    (if first then (update 0 k (tab layers n f)).bind (update k n)
      else (update k n (tab layers n f)).bind (update 0 k))
      = some (tab layers n fun r x =>
          if r = h ∧ x < n then cellFrom A n x (fun c => (f (h - 1) c).cost) (dh x) (f h x)
          else f r x) := by
  have hne : ¬ (h - 1 = h) := by omega
  cases first with
  | true =>
    simp only [if_true]
    rw [hupd _ _ f (Nat.zero_le _) hk, Option.some_bind, hupd _ _ _ hk (le_refl n)]
    congr 2
    funext r x
    by_cases hr : r = h
    · subst hr
      by_cases hx : x < k
      · have hx' : x < n := by omega
        have hx2 : ¬ (k ≤ x ∧ x < n) := by omega
        simp [hx, hx', hx2]
      · by_cases hx' : x < n
        · have hx2 : k ≤ x ∧ x < n := by omega
          simp [hx, hx', hx2, hne]
        · have hx2 : ¬ (k ≤ x ∧ x < n) := by omega
          simp [hx, hx', hx2]
    · simp [hr]
  | false =>
    simp only [Bool.false_eq_true, if_false]
    rw [hupd _ _ f hk (le_refl n), Option.some_bind, hupd _ _ _ (Nat.zero_le _) hk]
    congr 2
    funext r x
    by_cases hr : r = h
    · subst hr
      by_cases hx : x < k
      · have hx' : x < n := by omega
        have hx2 : ¬ (k ≤ x ∧ x < n) := by omega
        have hx3 : ¬ (k ≤ x) := by omega
        simp [hx, hx', hx2, hx3, hne]
      · by_cases hx' : x < n
        · have hx2 : k ≤ x ∧ x < n := by omega
          simp [hx, hx', hx2]
        · have hx2 : ¬ (k ≤ x ∧ x < n) := by omega
          simp [hx, hx', hx2]
    · simp [hr]

theorem getVerticalSeam_paths_split_eq (A : Arith) (pixels : List RGB) (width height k : Nat)
    (first : Bool) (hwf : WellFormed pixels width height) (hk : k ≤ width) :
    getVerticalSeam_paths_split A pixels width height k first
      = some (tab height width (dp A width (vDelta pixels width))) := by
  unfold getVerticalSeam_paths_split
  apply paths_loop_init _ A height width (vDelta pixels width) hwf.2.1
  intro h f h1 hh
  exact row_fill_split (getVerticalSeam_update A pixels width h) A height width h
    (vDelta pixels width h) h1
    (fun start stop f hss hsw =>
      getVerticalSeam_update_tab A pixels width height h hwf h1 hh start stop f hss hsw)
    k hk first f

theorem getHorizontalSeam_paths_split_eq (A : Arith) (pixels : List RGB) (width height k : Nat)
    (first : Bool) (hwf : WellFormed pixels width height) (hk : k ≤ height) :
    getHorizontalSeam_paths_split A pixels width height k first
      = some (tab width height (dp A height (hDelta pixels width))) := by
  unfold getHorizontalSeam_paths_split
  apply paths_loop_init _ A width height (hDelta pixels width) hwf.1
  intro w f h1 hw
  exact row_fill_split (getHorizontalSeam_update A pixels width height w) A width height w
    (hDelta pixels width w) h1
    (fun start stop f hss hsw =>
      getHorizontalSeam_update_tab A pixels width height w hwf h1 hw start stop f hss hsw)
    k hk first f

/-- C12: the table and the seam (and with them the cost, the entry of the last
layer at the end of the seam) do not depend on the split point: on a
well-formed buffer, for every `k ≤ width`, filling each row by `update(0, k)`
and `update(k, width)` in either order gives the table and the seam of the
code's split at `width / 2`; likewise for `getHorizontalSeam` and every
`k ≤ height`. -/
theorem split_point_irrelevant (A : Arith) (pixels : List RGB) (width height : Nat)
    (hwf : WellFormed pixels width height) :
    (∃ paths seam, getVerticalSeam_paths A pixels width height = some paths ∧
        getVerticalSeam A pixels width height = some seam ∧
        ∀ (k : Nat) (leftFirst : Bool), k ≤ width →
          getVerticalSeam_paths_split A pixels width height k leftFirst = some paths ∧
          getVerticalSeam_split A pixels width height k leftFirst = some seam) ∧
      ∃ paths seam, getHorizontalSeam_paths A pixels width height = some paths ∧
        getHorizontalSeam A pixels width height = some seam ∧
        ∀ (k : Nat) (upperFirst : Bool), k ≤ height →
          getHorizontalSeam_paths_split A pixels width height k upperFirst = some paths ∧
          getHorizontalSeam_split A pixels width height k upperFirst = some seam := by
  constructor
  · obtain ⟨seam, hseam, _⟩ := getVerticalSeam_follows A pixels width height hwf
    refine ⟨_, seam, getVerticalSeam_paths_eq A pixels width height hwf, hseam, ?_⟩
    intro k first hk
    have hp := getVerticalSeam_paths_split_eq A pixels width height k first hwf hk
    refine ⟨hp, ?_⟩
    unfold getVerticalSeam_split
    unfold getVerticalSeam at hseam
    rw [getVerticalSeam_paths_eq A pixels width height hwf] at hseam
    rw [hp]
    exact hseam
  · obtain ⟨seam, hseam, _⟩ := getHorizontalSeam_follows A pixels width height hwf
    refine ⟨_, seam, getHorizontalSeam_paths_eq A pixels width height hwf, hseam, ?_⟩
    intro k first hk
    have hp := getHorizontalSeam_paths_split_eq A pixels width height k first hwf hk
    refine ⟨hp, ?_⟩
    unfold getHorizontalSeam_split
    unfold getHorizontalSeam at hseam
    rw [getHorizontalSeam_paths_eq A pixels width height hwf] at hseam
    rw [hp]
    exact hseam

theorem split_point_irrelevant_witness :
    WellFormed stripes 3 3 ∧
      getVerticalSeam_split Arith.u32 stripes 3 3 3 true = some [1, 1, 1] ∧
      getVerticalSeam_split Arith.u32 stripes 3 3 0 false = some [1, 1, 1] ∧
      ((∃ paths seam, getVerticalSeam_paths Arith.u32 stripes 3 3 = some paths ∧
          getVerticalSeam Arith.u32 stripes 3 3 = some seam ∧
          ∀ (k : Nat) (leftFirst : Bool), k ≤ 3 →
            getVerticalSeam_paths_split Arith.u32 stripes 3 3 k leftFirst = some paths ∧
            getVerticalSeam_split Arith.u32 stripes 3 3 k leftFirst = some seam) ∧
        ∃ paths seam, getHorizontalSeam_paths Arith.u32 stripes 3 3 = some paths ∧
          getHorizontalSeam Arith.u32 stripes 3 3 = some seam ∧
          ∀ (k : Nat) (upperFirst : Bool), k ≤ 3 →
            getHorizontalSeam_paths_split Arith.u32 stripes 3 3 k upperFirst = some paths ∧
            getHorizontalSeam_split Arith.u32 stripes 3 3 k upperFirst = some seam) := by
  have hwf : WellFormed stripes 3 3 := by unfold WellFormed; decide
  have h := split_point_irrelevant Arith.u32 stripes 3 3 hwf
  exact ⟨hwf, by decide, by decide, h⟩

theorem forLoop_succ_last {σ : Type} (body : Nat → σ → Option σ) (k : Nat) :
    ∀ (i : Nat) (s : σ),
      forLoop body i (k + 1) s = (forLoop body i k s).bind (body (i + k)) := by
  induction k with
  | zero =>
    intro i s
    simp only [forLoop, Option.some_bind, Nat.add_zero]
    cases body i s <;> rfl
  | succ k ih =>
    intro i s
    rw [forLoop]
    cases hb : body i s with
    | none => simp [forLoop, hb]
    | some s1 =>
      rw [Option.some_bind, ih (i + 1) s1]
      have e : i + 1 + k = i + (k + 1) := by omega
      rw [e]
      conv_rhs => rw [forLoop, hb, Option.some_bind]

theorem vertical_loop_to_zero (A : Arith) (lw lh : Nat) (p : List RGB)
    (hwf : WellFormed p lw lh) :
    forLoop (carveVertical A lw lh) 0 lw p = some [] := by
  have hb := wf_bounds hwf
  have hw1 := hwf.1
  obtain ⟨q, hq, _, hwfq⟩ := vertical_loop A lw lh (by omega) (lw - 1) 0 p (by omega) hwf
  have e1 : lw - 0 - (lw - 1) = 1 := by omega
  rw [e1] at hwfq
  obtain ⟨seam, hseam, his⟩ := getVerticalSeam_isSeam A q 1 lh hwfq
  obtain ⟨out, hout, hl⟩ := removeVerticalSeam_length seam q 1 lh hwfq his.1 his.2.1
  have hnil : out = [] := List.eq_nil_of_length_eq_zero (by rw [hl]; simp)
  have e3 : (lw + 2 ^ 32 - (0 + (lw - 1))) % 2 ^ 32 = 1 := by omega
  have hstep : carveVertical A lw lh (0 + (lw - 1)) q = some [] := by
    unfold carveVertical
    rw [e3, hseam, Option.some_bind, hout, hnil]
  have hsplit := forLoop_succ_last (carveVertical A lw lh) (lw - 1) 0 p
  rw [show lw - 1 + 1 = lw by omega] at hsplit
  rw [hsplit, hq, Option.some_bind]
  exact hstep

theorem horizontal_loop_to_zero (A : Arith) (cw lh : Nat) (p : List RGB)
    (hwf : WellFormed p cw lh) :
    forLoop (carveHorizontal A cw lh) 0 lh p = some [] := by
  have hb := wf_bounds hwf
  have hh1 := hwf.2.1
  obtain ⟨q, hq, _, hwfq⟩ := horizontal_loop A cw lh (by omega) (lh - 1) 0 p (by omega) hwf
  have e1 : lh - 0 - (lh - 1) = 1 := by omega
  rw [e1] at hwfq
  obtain ⟨seam, hseam, his⟩ := getHorizontalSeam_isSeam A q cw 1 hwfq
  obtain ⟨out, hout, hl⟩ := removeHorizontalSeam_length seam q cw 1 hwfq his.1 his.2.1
  have hnil : out = [] := List.eq_nil_of_length_eq_zero (by rw [hl]; simp)
  have e3 : (lh + 2 ^ 32 - (0 + (lh - 1))) % 2 ^ 32 = 1 := by omega
  have hstep : carveHorizontal A cw lh (0 + (lh - 1)) q = some [] := by
    unfold carveHorizontal
    rw [e3, hseam, Option.some_bind, hout, hnil]
  have hsplit := forLoop_succ_last (carveHorizontal A cw lh) (lh - 1) 0 p
  rw [show lh - 1 + 1 = lh by omega] at hsplit
  rw [hsplit, hq, Option.some_bind]
  exact hstep

/-- C15 as the code has it: the handler has no precondition check.  From a
state with a well-formed current buffer, a request with target height 0 and
`1 ≤ targetWidth ≤ cur_width` is served: the seams are computed and carved
one by one and the handler leaves an empty buffer with `cur_height = 0`;
likewise a request with target width 0 and the height unchanged leaves an
empty buffer with `cur_width = 0`. -/
theorem resize_to_zero (A : Arith) (st : CarveState)
    (hwf : WellFormed st.cur_pixels st.cur_width st.cur_height) :
    (∀ tw : Nat, 1 ≤ tw → tw ≤ st.cur_width →
      ∃ st', resize A st (tw : Int) 0 = some st' ∧ st'.cur_pixels = [] ∧
        st'.cur_width = tw ∧ st'.cur_height = 0) ∧
      ∃ st', resize A st 0 (st.cur_height : Int) = some st' ∧ st'.cur_pixels = [] ∧
        st'.cur_width = 0 ∧ st'.cur_height = st.cur_height := by
  have hb := wf_bounds hwf
  have hw1 := hwf.1
  have hh1 := hwf.2.1
  have e0 : toU32 0 = 0 := by decide
  constructor
  · intro tw h1 h2
    obtain ⟨q, hq, _, hwfq⟩ := vertical_loop A st.cur_width st.cur_height (by omega)
      (st.cur_width - tw) 0 st.cur_pixels (by omega) hwf
    have e1 : st.cur_width - 0 - (st.cur_width - tw) = tw := by omega
    rw [e1] at hwfq
    have hz := horizontal_loop_to_zero A tw st.cur_height q hwfq
    have etw : toU32 (tw : Int) = tw := toU32_natCast tw (by omega)
    have hg : decide (toU32 (tw : Int) > st.cur_width ∨ toU32 0 > st.cur_height) = false := by
      simp only [decide_eq_false_iff_not, etw, e0]
      omega
    have hv : (if tw < st.cur_width then
        forLoop (carveVertical A st.cur_width st.cur_height) 0 (st.cur_width - tw) st.cur_pixels
        else some st.cur_pixels) = some q := by
      split
      · exact hq
      · have : st.cur_width - tw = 0 := by omega
        rw [this] at hq
        exact hq
    have hlt : 0 < st.cur_height := by omega
    refine ⟨{ st with cur_pixels := [], cur_width := tw, cur_height := 0 }, ?_, rfl, rfl, rfl⟩
    unfold resize
    simp only [hg, Bool.false_eq_true, if_false]
    simp only [etw, e0, hv, Option.some_bind, hlt, if_true, Nat.sub_zero, hz]
    rfl
  · have hz := vertical_loop_to_zero A st.cur_width st.cur_height st.cur_pixels hwf
    have eth : toU32 (st.cur_height : Int) = st.cur_height := toU32_natCast _ (by omega)
    have hg : decide (toU32 0 > st.cur_width ∨ toU32 (st.cur_height : Int) > st.cur_height)
        = false := by
      simp only [decide_eq_false_iff_not, eth, e0]
      omega
    have hlt : 0 < st.cur_width := by omega
    refine ⟨{ st with cur_pixels := [], cur_width := 0, cur_height := st.cur_height }, ?_, rfl,
      rfl, rfl⟩
    unfold resize
    simp only [hg, Bool.false_eq_true, if_false]
    simp only [eth, e0, hlt, if_true, Nat.sub_zero, hz, Option.some_bind, lt_self_iff_false,
      if_false]
    rfl

theorem resize_to_zero_witness :
    WellFormed (CarveState.init scenario 3 2).cur_pixels (CarveState.init scenario 3 2).cur_width
        (CarveState.init scenario 3 2).cur_height ∧
      ((∀ tw : Nat, 1 ≤ tw → tw ≤ (CarveState.init scenario 3 2).cur_width →
        ∃ st', resize Arith.u32 (CarveState.init scenario 3 2) (tw : Int) 0 = some st' ∧
          st'.cur_pixels = [] ∧ st'.cur_width = tw ∧ st'.cur_height = 0) ∧
        ∃ st', resize Arith.u32 (CarveState.init scenario 3 2) 0
            ((CarveState.init scenario 3 2).cur_height : Int) = some st' ∧
          st'.cur_pixels = [] ∧ st'.cur_width = 0 ∧
          st'.cur_height = (CarveState.init scenario 3 2).cur_height) := by
  have hwf : WellFormed (CarveState.init scenario 3 2).cur_pixels
      (CarveState.init scenario 3 2).cur_width (CarveState.init scenario 3 2).cur_height := by
    unfold WellFormed
    decide
  have h := resize_to_zero Arith.u32 (CarveState.init scenario 3 2) hwf
  exact ⟨hwf, h⟩

/-- The requests 3 by 0 and 0 by 2 on the 3 by 2 scenario are served, not
rejected: each leaves an empty buffer. -/
theorem zero_target_not_rejected :
    (resize Arith.u32 (CarveState.init scenario 3 2) 3 0).map
        (fun st => (st.cur_pixels, st.cur_width, st.cur_height)) = some ([], 3, 0) ∧
      (resize Arith.u32 (CarveState.init scenario 3 2) 0 2).map
        (fun st => (st.cur_pixels, st.cur_width, st.cur_height)) = some ([], 0, 2) := by
  decide

theorem getD_ext {s r : List Nat} (hlen : s.length = r.length)
    (h : ∀ i, i < s.length → s.getD i 0 = r.getD i 0) : s = r := by
  apply List.ext_getElem hlen
  intro i h1 h2
  have := h i h1
  simp only [List.getD_eq_getElem?_getD, List.getElem?_eq_getElem h1,
    List.getElem?_eq_getElem h2, Option.getD_some] at this
  exact this

theorem exists_last_diff (s r : List Nat) (H : Nat) (hs : s.length = H) (hr : r.length = H)
    (hne : s ≠ r) (k : Nat) :
    k ≤ H → (∀ i, k ≤ i → i < H → s.getD i 0 = r.getD i 0) →
      ∃ j, j < H ∧ s.getD j 0 ≠ r.getD j 0 ∧ ∀ i, j < i → i < H → s.getD i 0 = r.getD i 0 := by
  induction k with
  | zero =>
    intro _ hag
    exfalso
    apply hne
    apply getD_ext (by rw [hs, hr])
    intro i hi
    exact hag i (Nat.zero_le _) (by omega)
  | succ k ih =>
    intro hk hag
    by_cases he : s.getD k 0 = r.getD k 0
    · apply ih (by omega)
      intro i hki hi
      rcases Nat.eq_or_lt_of_le hki with e | e
      · rw [← e]
        exact he
      · exact hag i (by omega) hi
    · exact ⟨k, by omega, he, fun i hi hiH => hag i (by omega) hiH⟩

theorem costUpTo_tail (delta : Nat → Nat → Nat → Nat) (s r : List Nat) (j H : Nat)
    (hag : ∀ i, j < i → i < H → s.getD i 0 = r.getD i 0) (h : Nat) :
    j + 1 ≤ h → h < H →
      costUpTo delta s h + costUpTo delta r (j + 1)
        = costUpTo delta r h + costUpTo delta s (j + 1) := by
  induction h with
  | zero =>
    intro h1 _
    omega
  | succ k ih =>
    intro h1 h2
    rcases Nat.eq_or_lt_of_le h1 with e | e
    · have e' : k = j := by omega
      subst e'
      omega
    · have := ih (by omega) (by omega)
      have es : costUpTo delta s (k + 1)
          = costUpTo delta s k + delta (k + 1) (s.getD (k + 1) 0) (s.getD k 0) := rfl
      have er : costUpTo delta r (k + 1)
          = costUpTo delta r k + delta (k + 1) (r.getD (k + 1) 0) (r.getD k 0) := rfl
      rw [hag (k + 1) (by omega) h2, hag k (by omega) (by omega)] at es
      omega

theorem dp_lex_least (n : Nat) (delta : Nat → Nat → Nat → Nat) (layers m : Nat) (hl : 1 ≤ layers)
    (r : List Nat) (hf : Follows (dp Arith.exact n delta) layers n m 0 r)
    (hm : FirstMin (dp Arith.exact n delta (layers - 1)) n m)
    (s : List Nat) (hs : IsSeam s layers n)
    (hcost : costUpTo delta s (layers - 1) = costUpTo delta r (layers - 1)) (hne : s ≠ r) :
    ∃ j, j < layers ∧ r.getD j 0 < s.getD j 0 ∧
      ∀ i, j < i → i < layers → s.getD i 0 = r.getD i 0 := by
  obtain ⟨j, hj, hdiff, hag⟩ := exists_last_diff s r layers hs.1 hf.1 hne layers (le_refl _)
    (fun i h1 h2 => by omega)
  refine ⟨j, hj, ?_, hag⟩
  have hlast : layers - 1 < layers := by omega
  have F1 := dp_cost_eq_costUpTo n delta layers m r hf
  have F2 := dp_cost_le_costUpTo n delta layers s hs
  rcases Nat.eq_or_lt_of_le (Nat.le_sub_one_of_lt hj) with e | e
  · -- the seams differ in the last layer
    subst e
    have hrm : r.getD (layers - 1) 0 = m := getD_of_getElem? hf.2.1
    rw [hrm] at hdiff ⊢
    by_contra hcon
    have hlt : s.getD (layers - 1) 0 < m := by omega
    have h1 := hm.2.2 _ hlt
    have h2 := F2 (layers - 1) hlast
    have h3 := F1 (layers - 1) hlast
    rw [hrm] at h3
    omega
  · -- the seams agree in layer `j + 1`
    have hj1 : j + 1 < layers := by omega
    have hx : s.getD (j + 1) 0 = r.getD (j + 1) 0 := hag (j + 1) (by omega) hj1
    have htail := costUpTo_tail delta s r j layers hag (layers - 1) (by omega) hlast
    have heq : costUpTo delta r (j + 1) = costUpTo delta s (j + 1) := by omega
    obtain ⟨a, b, ha, hb, hbn, hab⟩ := hf.2.2 (j + 1) (by omega) hj1
    simp only [Nat.add_sub_cancel] at ha
    have hra : r.getD j 0 = a := getD_of_getElem? ha
    have hrb : r.getD (j + 1) 0 = b := getD_of_getElem? hb
    obtain ⟨c, hc, hccost, _, _, _, hbest⟩ := dp_succ_best Arith.exact n delta j b hbn
    have hac : a = c := by
      have : (a : Int) = (c : Int) := by rw [hab, hc]
      exact_mod_cast this
    have hadj := hs.2.2 j hj1
    rw [hx, hrb] at hadj
    obtain ⟨hle, htie⟩ := hbest (s.getD j 0) (hs.2.1 j hj) hadj.2 hadj.1
    have h3 := F1 (j + 1) hj1
    rw [hrb] at h3
    have h4 := F2 j hj
    have h5 : costUpTo delta s (j + 1)
        = costUpTo delta s j + delta (j + 1) b (s.getD j 0) := by
      rw [costUpTo, hx, hrb]
    simp only [Arith.add] at hle htie hccost
    have hc_le : c ≤ s.getD j 0 := by
      apply htie
      omega
    rw [hra, hac] at hdiff ⊢
    omega

/-- C18: over exact integer costs `getVerticalSeam` returns, on a well-formed
buffer, a vertical seam of minimum total cost, and among all minimum-cost
vertical seams it is the least one in lexicographic order read from the last
row back to the first: every other minimum-cost seam `s` has, at the largest
row index where it differs from the result, a strictly larger column than
the result.  Where no cumulative cost can reach `2 ^ 32`
(`195075 * (height - 1) < 2 ^ 32`) the code's 32-bit arithmetic returns this
very seam. -/
theorem getVerticalSeam_lex_least (pixels : List RGB) (width height : Nat)
    (hwf : WellFormed pixels width height) :
    ∃ seam, getVerticalSeam Arith.exact pixels width height = some seam ∧
      IsSeam seam height width ∧
      (∀ t : List Nat, IsSeam t height width →
        pathCost pixels width seam ≤ pathCost pixels width t) ∧
      (∀ s : List Nat, IsSeam s height width →
        (∀ t : List Nat, IsSeam t height width →
          pathCost pixels width s ≤ pathCost pixels width t) →
        s ≠ seam →
        ∃ j, j < height ∧ seam.getD j 0 < s.getD j 0 ∧
          ∀ i, j < i → i < height → s.getD i 0 = seam.getD i 0) ∧
      (195075 * (height - 1) < 2 ^ 32 →
        getVerticalSeam Arith.u32 pixels width height = some seam) := by
  obtain ⟨seam, hseam, hf, hm⟩ := getVerticalSeam_follows Arith.exact pixels width height hwf
  have hseamIs : IsSeam seam height width :=
    follows_isSeam Arith.exact width _ height _ seam hm.1 hf
  have hopt : ∀ t : List Nat, IsSeam t height width →
      pathCost pixels width seam ≤ pathCost pixels width t :=
    fun t ht => seam_pathCost_le pixels width height _ hwf.2.1 seam hf hm t ht
  refine ⟨seam, hseam, hseamIs, hopt, ?_, ?_⟩
  · intro s hs hmin hne
    have e4 := hmin seam hseamIs
    have e6 := hopt s hs
    rw [pathCost_eq_costUpTo, pathCost_eq_costUpTo, hf.1, hs.1] at e4 e6
    have e5 : costUpTo (vDelta pixels width) s (height - 1)
        ≤ costUpTo (vDelta pixels width) seam (height - 1) := by exact_mod_cast e4
    have e7 : costUpTo (vDelta pixels width) seam (height - 1)
        ≤ costUpTo (vDelta pixels width) s (height - 1) := by exact_mod_cast e6
    exact dp_lex_least width (vDelta pixels width) height _ hwf.2.1 seam hf hm s hs
      (by omega) hne
  · intro hsmall
    rw [getVerticalSeam_u32_eq_exact pixels width height hwf hsmall]
    exact hseam

theorem getVerticalSeam_lex_least_witness :
    WellFormed scenario 3 2 ∧
      getVerticalSeam Arith.exact scenario 3 2 = some [0, 0] ∧
      pathCost scenario 3 [0, 0] = pathCost scenario 3 [0, 1] ∧
      ∃ seam, getVerticalSeam Arith.exact scenario 3 2 = some seam ∧
        IsSeam seam 2 3 ∧
        (∀ t : List Nat, IsSeam t 2 3 → pathCost scenario 3 seam ≤ pathCost scenario 3 t) ∧
        (∀ s : List Nat, IsSeam s 2 3 →
          (∀ t : List Nat, IsSeam t 2 3 → pathCost scenario 3 s ≤ pathCost scenario 3 t) →
          s ≠ seam →
          ∃ j, j < 2 ∧ seam.getD j 0 < s.getD j 0 ∧
            ∀ i, j < i → i < 2 → s.getD i 0 = seam.getD i 0) ∧
        (195075 * (2 - 1) < 2 ^ 32 → getVerticalSeam Arith.u32 scenario 3 2 = some seam) := by
  have hwf : WellFormed scenario 3 2 := by unfold WellFormed; decide
  have h := getVerticalSeam_lex_least scenario 3 2 hwf
  exact ⟨hwf, by decide, by decide, h⟩

end SeamCarving
